import Mathlib

/-!
# Verification of the audio processor graph core

A shallow embedding, in Lean 4, of the topology model and render-sequence
compiler of `src/JuceLibraryCode/modules/juce_audio_processors/processors/
juce_AudioProcessorGraph.cpp`, together with proofs about the embedded
definitions.

Conventions of the embedding:
* C++ `int` values that can be negative (channel indices, latencies) are
  modelled as `Int`; channel *counts* (always non-negative) as `Nat`.
* `std::map` / `std::set` are modelled as association lists / sorted lists;
  the container invariants (strictly sorted keys, strictly sorted element
  lists) appear as explicit well-formedness predicates where a proof needs
  them.
* `std::map::equal_range` followed by `erase`, on a map whose comparator
  looks only at the node id, removes exactly the entries with that node id;
  it is embedded as a `filter`.
* The two recursive graph walks of the source (`getConnectedRecursive`,
  `getAllParentsOfNode`) are embedded with an explicit fuel argument; a
  fuel of (number of mentioned nodes + 1) is provably sufficient, and the
  top-level wrappers pass exactly that.
-/

namespace AudioGraph

/-- Node identifier: the `uid` of `AudioProcessorGraph::NodeID` (a 32-bit
integer in the source, modelled as `Nat`; none of the verified operations
wrap around). -/
abbrev NodeID := Nat

/-- Modelled from the spec: the reserved sentinel channel index denoting the
single MIDI port of a node (`AudioProcessorGraph::midiChannelIndex`, declared
in the graph header, which is not part of the sources here; JUCE uses
`0x1000`).  The verified statements depend only on it being non-negative. -/
def midiChannelIndex : Int := 0x1000

/-- `AudioProcessorGraph::NodeAndChannel`: a node id together with a channel
index (audio channel, or the MIDI sentinel). -/
structure NodeAndChannel where
  nodeID : Nat
  channelIndex : Int
deriving DecidableEq

/-- `NodeAndChannel::isMIDI`. -/
def NodeAndChannel.isMIDI (p : NodeAndChannel) : Bool :=
  p.channelIndex == midiChannelIndex

/-- Modelled from the spec: the strict ordering on `NodeAndChannel` used by
the `std::map` / `std::set` containers of the connection set (declared in the
graph header): lexicographic over (node id, channel index); the spec states
the source sets are kept ordered by source node id. -/
def nacLt (a b : NodeAndChannel) : Bool :=
  a.nodeID < b.nodeID || (a.nodeID == b.nodeID && a.channelIndex < b.channelIndex)

/-- `AudioProcessorGraph::Connection`: a directed edge from a source
`NodeAndChannel` to a destination `NodeAndChannel`. -/
structure Connection where
  source : NodeAndChannel
  destination : NodeAndChannel
deriving DecidableEq

/-- `Connection::operator<` (source lines 1399–1409): lexicographic over
(source.node, destination.node, source.channel, destination.channel). -/
def connLt (a b : Connection) : Bool :=
  a.source.nodeID < b.source.nodeID ||
    (a.source.nodeID == b.source.nodeID &&
      (a.destination.nodeID < b.destination.nodeID ||
        (a.destination.nodeID == b.destination.nodeID &&
          (a.source.channelIndex < b.source.channelIndex ||
            (a.source.channelIndex == b.source.channelIndex &&
              a.destination.channelIndex < b.destination.channelIndex)))))

/-- The non-strict companion of `connLt` (what `std::sort` guarantees between
adjacent elements of its output). -/
def connLe (a b : Connection) : Bool := ! connLt b a

/-- The external audio-processor contract (spec §6): the attributes of the
opaque processor black box that the graph code reads. -/
structure Processor where
  totalNumInputChannels : Nat
  totalNumOutputChannels : Nat
  acceptsMidi : Bool
  producesMidi : Bool
  latencySamples : Int
  supportsDoublePrecisionProcessing : Bool
  usingDoublePrecision : Bool
deriving DecidableEq

/-- `AudioProcessorGraph::Node`: a node id owning one processor. -/
structure Node where
  nodeID : Nat
  processor : Processor
deriving DecidableEq

/-- The `Nodes` registry: a sequence of nodes kept sorted by id in the
source. -/
structure Nodes where
  array : List Node
deriving DecidableEq

/-- `Nodes::getNodeForId`: lookup by id.  The source uses binary search on
the sorted array; on the list model this denotes the first node carrying the
id. -/
def Nodes.getNodeForId (n : Nodes) (nodeID : NodeID) : Option Node :=
  n.array.find? (fun nd => nd.nodeID == nodeID)

/-- `Nodes::removeNode`: remove and return the node with the given id, if
present (`removeAndReturn` at the `lower_bound` position in the source =
removing the first node with that id). -/
def Nodes.removeNode (n : Nodes) (nodeID : NodeID) : Option Node × Nodes :=
  match n.array.find? (fun nd => nd.nodeID == nodeID) with
  | some nd => (some nd, ⟨n.array.eraseP (fun x => x.nodeID == nodeID)⟩)
  | none => (none, n)

/-- The `Connections` value type: the map from destination `NodeAndChannel`
to the set of source `NodeAndChannel`s, modelled as an association list of
(destination, source list) entries. -/
structure Connections where
  sourcesForDestination : List (NodeAndChannel × List NodeAndChannel)
deriving DecidableEq

/-- The `std::map` / `std::set` representation invariant of a `Connections`
value: keys strictly sorted, and every source set strictly sorted. -/
def Connections.wf (c : Connections) : Prop :=
  List.Chain' (fun a b => nacLt a.1 b.1 = true) c.sourcesForDestination ∧
    ∀ p ∈ c.sourcesForDestination, List.Chain' (fun a b => nacLt a b = true) p.2

/-- `Connections::isConnectionLegal` (source lines 190–213), translated
conjunct by conjunct; the C++ pointer comparison `source != dest` is rendered
as inequality of the looked-up node ids (node objects are distinct exactly
when their ids are). -/
def isConnectionLegal (n : Nodes) (c : Connection) : Bool :=
  let source := n.getNodeForId c.source.nodeID
  let dest := n.getNodeForId c.destination.nodeID
  let sourceChannel := c.source.channelIndex
  let destChannel := c.destination.channelIndex
  let sourceIsMIDI := midiChannelIndex == sourceChannel
  let destIsMIDI := midiChannelIndex == destChannel
  decide (0 ≤ sourceChannel)
    && decide (0 ≤ destChannel)
    && (source.map Node.nodeID) != (dest.map Node.nodeID)
    && sourceIsMIDI == destIsMIDI
    && source.isSome
    && (match source with
        | some s =>
            if sourceIsMIDI then s.processor.producesMidi
            else decide (sourceChannel < (s.processor.totalNumOutputChannels : Int))
        | none => false)
    && dest.isSome
    && (match dest with
        | some d =>
            if destIsMIDI then d.processor.acceptsMidi
            else decide (destChannel < (d.processor.totalNumInputChannels : Int))
        | none => false)

/-- `Connections::isConnected (Connection)` (source lines 220–226): find the
destination entry, then look for the source in its set. -/
def Connections.isConnected (c : Connections) (conn : Connection) : Bool :=
  match c.sourcesForDestination.find? (fun p => p.1 == conn.destination) with
  | some p => p.2.contains conn.source
  | none => false

/-- `Connections::canConnect` (source lines 215–218). -/
def Connections.canConnect (c : Connections) (n : Nodes) (conn : Connection) : Bool :=
  isConnectionLegal n conn && ! c.isConnected conn

/-- Sorted-insert of one element into a `std::set<NodeAndChannel>` model
(no-op when already present). -/
def setInsertNac (x : NodeAndChannel) : List NodeAndChannel → List NodeAndChannel
  | [] => [x]
  | y :: ys =>
      if nacLt x y then x :: y :: ys
      else if x = y then y :: ys
      else y :: setInsertNac x ys

/-- `sourcesForDestination[c.destination].insert (c.source)`: `operator[]`
creates the (sorted-position) entry when missing, then the source is inserted
into the set. -/
def mapInsertSource (dest source : NodeAndChannel) :
    List (NodeAndChannel × List NodeAndChannel) → List (NodeAndChannel × List NodeAndChannel)
  | [] => [(dest, [source])]
  | (k, v) :: rest =>
      if nacLt dest k then (dest, [source]) :: (k, v) :: rest
      else if dest = k then (k, setInsertNac source v) :: rest
      else (k, v) :: mapInsertSource dest source rest

/-- `Connections::addConnection` (source lines 144–152): guarded by
`canConnect`, then inserts the source into the destination's set. -/
def Connections.addConnection (c : Connections) (n : Nodes) (conn : Connection) :
    Bool × Connections :=
  if c.canConnect n conn then
    (true, ⟨mapInsertSource conn.destination conn.source c.sourcesForDestination⟩)
  else (false, c)

/-- Erase `conn.source` from the set stored under `conn.destination`,
reporting whether an element was removed (the entry itself stays, possibly
empty, exactly as in the source). -/
def mapEraseSource (dest source : NodeAndChannel) :
    List (NodeAndChannel × List NodeAndChannel) → Bool × List (NodeAndChannel × List NodeAndChannel)
  | [] => (false, [])
  | (k, v) :: rest =>
      if k = dest then (v.contains source, (k, v.erase source) :: rest)
      else
        let r := mapEraseSource dest source rest
        (r.1, (k, v) :: r.2)

/-- `Connections::removeConnection` (source lines 154–158). -/
def Connections.removeConnection (c : Connections) (conn : Connection) :
    Bool × Connections :=
  let r := mapEraseSource conn.destination conn.source c.sourcesForDestination
  (r.1, ⟨r.2⟩)

/-- `Connections::disconnectNode` (source lines 174–188): erase the
`equal_range` of destination entries with this node id, then erase the
`equal_range` of sources with this node id from every remaining set; the
report is true when either pass found something. -/
def Connections.disconnectNode (c : Connections) (n : NodeID) : Bool × Connections :=
  let destHit := c.sourcesForDestination.any (fun p => p.1.nodeID == n)
  let remaining := c.sourcesForDestination.filter (fun p => p.1.nodeID != n)
  let srcHit := remaining.any (fun p => p.2.any (fun s => s.nodeID == n))
  (destHit || srcHit,
   ⟨remaining.map (fun p => (p.1, p.2.filter (fun s => s.nodeID != n)))⟩)

/-- `Connections::getSourcesForDestination` (source lines 252–256). -/
def Connections.getSourcesForDestination (c : Connections) (p : NodeAndChannel) :
    List NodeAndChannel :=
  match c.sourcesForDestination.find? (fun q => q.1 == p) with
  | some q => q.2
  | none => []

/-- Sorted-insert into a `std::set<NodeID>` model. -/
def setInsertNat (x : NodeID) : List NodeID → List NodeID
  | [] => [x]
  | y :: ys =>
      if x < y then x :: y :: ys
      else if x = y then y :: ys
      else y :: setInsertNat x ys

/-- `Connections::getSourceNodesForDestination` (source lines 239–250): the
set of node ids that appear as a source on any channel of the given
destination node. -/
def Connections.getSourceNodesForDestination (c : Connections) (destID : NodeID) :
    List NodeID :=
  ((c.sourcesForDestination.filter (fun p => p.1.nodeID == destID)).flatMap
      (fun p => p.2.map NodeAndChannel.nodeID)).foldl
    (fun acc s => setInsertNat s acc) []

/-- Tail worker of `uniqueAdjacent`: drop elements equal to the previously
kept one, keep the first element of each new run. -/
def uniqueAdjacentFrom (prev : Connection) : List Connection → List Connection
  | [] => []
  | b :: rest =>
      if b == prev then uniqueAdjacentFrom prev rest
      else b :: uniqueAdjacentFrom b rest

/-- Remove adjacent duplicates, keeping the first element of each run
(`std::unique` followed by `erase`). -/
def uniqueAdjacent : List Connection → List Connection
  | [] => []
  | a :: rest => a :: uniqueAdjacentFrom a rest

/-- `Connections::getConnections` (source lines 258–269): flatten the map
into (source, destination) pairs, `std::sort` by `Connection::operator<`,
then `std::unique`. -/
def Connections.getConnections (c : Connections) : List Connection :=
  uniqueAdjacent
    ((c.sourcesForDestination.flatMap
        (fun p => p.2.map (fun s => Connection.mk s p.1))).mergeSort connLe)

/-- The state threaded through `Connections::getConnectedRecursive`: the
visited set and the found flag. -/
structure SearchState where
  visited : Finset NodeID
  found : Bool

/-- Every node id mentioned anywhere in the connection map (as a destination
key or as a source).  Used only to size the fuel of the recursive walks. -/
def Connections.mentioned (c : Connections) : Finset NodeID :=
  (c.sourcesForDestination.flatMap
      (fun p => p.1.nodeID :: p.2.map NodeAndChannel.nodeID)).toFinset

/-- `Connections::getConnectedRecursive` (source lines 288–302): depth-first
walk from `dest` over the sources-of-destination mapping, with a visited set;
sets `found` on reaching `source`.  The C++ recursion terminates because the
visited set grows; here the same bound appears as an explicit fuel argument
(a fuel of `mentioned.card + 1` is provably never exhausted). -/
def getConnectedRecursive (c : Connections) (source : NodeID) :
    Nat → NodeID → SearchState → SearchState
  | 0, _, st => st
  | fuel + 1, dest, st =>
      (c.getSourceNodesForDestination dest).foldl
        (fun acc s =>
          if acc.found || s == source then ⟨acc.visited, true⟩
          else if s ∈ acc.visited then acc
          else getConnectedRecursive c source fuel s acc)
        ⟨insert dest st.visited, st.found⟩

/-- `Connections::isAnInputTo` (source lines 271–274). -/
def Connections.isAnInputTo (c : Connections) (source dest : NodeID) : Bool :=
  (getConnectedRecursive c source (c.mentioned.card + 1) dest ⟨∅, false⟩).found

/-- The `nodeParents` map of `RenderSequenceBuilder::createOrderedNodeList`:
node id → set of (transitively computed) parent ids. -/
abbrev ParentsMap := List (NodeID × Finset NodeID)

/-- `std::map::find` on the parents map. -/
def pmLookup (m : ParentsMap) (k : NodeID) : Option (Finset NodeID) :=
  (m.find? (fun e => e.1 == k)).map Prod.snd

/-- Store a value under a key (replace the existing entry, or append). -/
def pmSet : ParentsMap → NodeID → Finset NodeID → ParentsMap
  | [], k, v => [(k, v)]
  | e :: rest, k, v => if e.1 = k then (k, v) :: rest else e :: pmSet rest k v

/-- The accumulating parents set of `getAllParentsOfNode` (the `parents`
reference of the source): the `topChild` entry of the threaded map, empty
when absent. -/
def pmAcc (m : ParentsMap) (topChild : Nat) : Finset Nat :=
  (pmLookup m topChild).getD ∅

/-- `RenderSequenceBuilder::getAllParentsOfNode` (source lines 785–808).  In
the C++, the accumulating `parents` set is passed by reference through all
recursive calls and is itself the `nodeParents` entry of the node whose
parents are being computed (`topChild`); the map is therefore threaded whole,
and the accumulator is read and written through the `topChild` entry
(`pmAcc`), which reproduces the aliasing of the original (the memo lookup is
performed on the map holding the updated accumulator entry, exactly as
`otherParents.find` sees the aliased in-progress set).  Fuel as in
`getConnectedRecursive`. -/
def getAllParentsOfNode (c : Connections) (topChild : Nat) :
    Nat → Nat → ParentsMap → ParentsMap
  | 0, _, m => m
  | fuel + 1, child, m =>
      (c.getSourceNodesForDestination child).foldl
        (fun m parentNode =>
          if parentNode = child then m
          else if parentNode ∈ pmAcc m topChild then m
          else
            match pmLookup (pmSet m topChild
                (insert parentNode (pmAcc m topChild))) parentNode with
            | some s =>
                pmSet (pmSet m topChild (insert parentNode (pmAcc m topChild)))
                  topChild (insert parentNode (pmAcc m topChild) ∪ s)
            | none =>
                getAllParentsOfNode c topChild fuel parentNode
                  (pmSet m topChild (insert parentNode (pmAcc m topChild))))
        m

/-- The insertion scan of `createOrderedNodeList` (source lines 819–827):
the leftmost index whose occupant has `nodeID` among its parents
(`operator[]` yields the empty set for a missing entry). -/
def findInsertionIndex (m : ParentsMap) (nodeID : NodeID) : List Node → Nat
  | [] => 0
  | r :: rest =>
      if nodeID ∈ (pmLookup m r.nodeID).getD ∅ then 0
      else findInsertionIndex m nodeID rest + 1

/-- One iteration of the `createOrderedNodeList` loop: insert the node at the
found index, then seed its parents entry (`operator[]` creates the entry,
then `getAllParentsOfNode` fills it). -/
def orderedStep (c : Connections) (st : List Node × ParentsMap) (node : Node) :
    List Node × ParentsMap :=
  let idx := findInsertionIndex st.2 node.nodeID st.1
  let m0 := pmSet st.2 node.nodeID ((pmLookup st.2 node.nodeID).getD ∅)
  (st.1.insertIdx idx node,
   getAllParentsOfNode c node.nodeID (c.mentioned.card + 1) node.nodeID m0)

/-- `RenderSequenceBuilder::createOrderedNodeList` (source lines 810–834). -/
def createOrderedNodeList (n : Nodes) (c : Connections) : List Node :=
  (n.array.foldl (orderedStep c) ([], [])).1

/-- The `delays` table of `RenderSequenceBuilder` (`HashMap<uint32, int>`):
missing entries read as 0 (`getNodeDelay`, source lines 770–773). -/
abbrev DelayMap := List (NodeID × Int)

/-- `RenderSequenceBuilder::getNodeDelay`. -/
def getNodeDelay (delays : DelayMap) (nodeID : NodeID) : Int :=
  ((delays.find? (fun e => e.1 == nodeID)).map Prod.snd).getD 0

/-- `RenderSequenceBuilder::getInputLatencyForNode` (source lines 775–782):
`std::accumulate` of `jmax` over the source nodes, starting from 0. -/
def getInputLatencyForNode (delays : DelayMap) (c : Connections) (nodeID : NodeID) : Int :=
  (c.getSourceNodesForDestination nodeID).foldl
    (fun acc s => max acc (getNodeDelay delays s)) 0

/-- `HashMap::set` on the delays table. -/
def delaySet : DelayMap → NodeID → Int → DelayMap
  | [], k, v => [(k, v)]
  | e :: rest, k, v => if e.1 = k then (k, v) :: rest else e :: delaySet rest k v

/-- The latency-relevant state of `RenderSequenceBuilder` while it emits
nodes: the per-node cumulative delays and the running `totalLatency`. -/
structure LatencyState where
  delays : DelayMap
  totalLatency : Int
deriving DecidableEq

/-- The latency bookkeeping of `createRenderingOpsForNode` (source lines
1097 and 1130–1133): compute the node's maximal input latency, record
`maxLatency + latencySamples` for the node, and — when the node has no
output channels — overwrite `totalLatency` with `maxLatency` (a plain
assignment in the source, not a `max`). -/
def latencyStep (c : Connections) (st : LatencyState) (node : Node) : LatencyState :=
  let maxLatency := getInputLatencyForNode st.delays c node.nodeID
  { delays := delaySet st.delays node.nodeID (maxLatency + node.processor.latencySamples)
    totalLatency :=
      if node.processor.totalNumOutputChannels = 0 then maxLatency else st.totalLatency }

/-- The latency state after the builder's main loop (source lines
1210–1215) has visited every ordered node. -/
def builderLatencyState (n : Nodes) (c : Connections) : LatencyState :=
  (createOrderedNodeList n c).foldl (latencyStep c) ⟨[], 0⟩

/-- `RenderSequenceBuilder::totalLatency` as reported through
`RenderSequenceBuilder::build` — the latency of the compiled sequence. -/
def builderTotalLatency (n : Nodes) (c : Connections) : Int :=
  (builderLatencyState n c).totalLatency

/-- The sample type of an audio buffer / render sequence. -/
inductive SampleType
  | flt
  | dbl
deriving DecidableEq

/-- The precision a processor is actively using
(`AudioProcessor::isUsingDoublePrecision`). -/
def activePrecisionType (isUsingDoublePrecision : Bool) : SampleType :=
  if isUsingDoublePrecision then SampleType.dbl else SampleType.flt

/-- Declared element type of `ProcessOp::tempBufferFloat` (source line 708:
`AudioBuffer<float> tempBufferFloat, tempBufferDouble;`). -/
def tempBufferFloatType : SampleType := SampleType.flt

/-- Declared element type of `ProcessOp::tempBufferDouble` — the same
declaration on source line 708 makes it `AudioBuffer<float>`, not
`AudioBuffer<double>`. -/
def tempBufferDoubleType : SampleType := SampleType.flt

/-- The sample type of the buffer actually handed to the processor's
`processBlock` by `ProcessOp::callProcess` (source lines 666–692).  The float
overload passes `tempBufferDouble` when the processor uses double precision,
the double overload passes `tempBufferFloat` when it does not; in each case
C++ overload resolution invokes `processBlock` at the *declared* type of the
buffer that is passed. -/
def callProcessSampleType (seq : SampleType) (isUsingDoublePrecision : Bool) : SampleType :=
  match seq with
  | SampleType.flt =>
      if isUsingDoublePrecision then tempBufferDoubleType else SampleType.flt
  | SampleType.dbl =>
      if isUsingDoublePrecision then SampleType.dbl else tempBufferFloatType

/-- `PrepareSettings` (source lines 329–341).  The `double sampleRate` field
takes part only in structural equality comparisons, so it is modelled as a
rational. -/
structure PrepareSettings where
  precision : SampleType
  sampleRate : ℚ
  blockSize : Int
deriving DecidableEq

/-- One op of a compiled render sequence, abstracted to its effect on an
(audio workspace, midi workspace) pair of integer-sample buffers. -/
def RenderOp := List Int × List Int → List Int × List Int

/-- A compiled render sequence as the audio thread sees it: the settings it
was built against, and its ordered op list. -/
structure ModelSequence where
  settings : PrepareSettings
  renderOps : List RenderOp

/-- Executing a sequence runs every op in order over the caller's buffers. -/
def ModelSequence.process (s : ModelSequence) (audio midi : List Int) :
    List Int × List Int :=
  s.renderOps.foldl (fun buf op => op buf) (audio, midi)

/-- `AudioProcessorGraph::Pimpl::processBlock`, decision part (source lines
1594–1605): run the live sequence only when it exists and its settings equal
the last-requested settings (`juce::Optional` compares engaged-and-equal);
otherwise clear the caller's audio buffer and MIDI buffer. -/
def pimplProcessBlock (state : Option ModelSequence)
    (lastRequested : Option PrepareSettings) (audio midi : List Int) :
    List Int × List Int :=
  match state with
  | some s =>
      if lastRequested = some s.settings then s.process audio midi
      else (audio.map (fun _ => 0), [])
  | none => (audio.map (fun _ => 0), [])

/-- `AudioProcessorGraph::Pimpl::removeNode` (source lines 1466–1472):
disconnect the node, then remove it from the registry, returning the removed
node (or null). -/
def pimplRemoveNode (n : Nodes) (c : Connections) (nodeID : NodeID) :
    Option Node × Nodes × Connections :=
  let c2 := (c.disconnectNode nodeID).2
  let r := n.removeNode nodeID
  (r.1, r.2, c2)

/-- A concrete processor stub (for instantiating theorems): the given audio
channel counts and latency, no MIDI, single precision. -/
def sampleProcessor (ins outs : Nat) (lat : Int) : Processor :=
  ⟨ins, outs, false, false, lat, false, false⟩

/-- Reported latency of a registry node (0 when the id is absent). -/
def nodeLatency (n : Nodes) (nodeID : Nat) : Int :=
  ((n.getNodeForId nodeID).map (fun nd => nd.processor.latencySamples)).getD 0

/-- Claim-side definition, following the claim's words (for comparison with
the builder's result): the maximum, over directed connection paths of length
at most `fuel` ending at `nodeID`, of the sum of the reported latencies of
the path's nodes (the end node itself excluded).  On an acyclic topology any
fuel at least the number of nodes is exact. -/
def specMaxPathLatency (n : Nodes) (c : Connections) : Nat → Nat → Int
  | 0, _ => 0
  | fuel + 1, nodeID =>
      (c.getSourceNodesForDestination nodeID).foldl
        (fun acc s => max acc (specMaxPathLatency n c fuel s + nodeLatency n s)) 0

/-- Claim-side definition: the maximum of `specMaxPathLatency` over all sink
nodes (zero output channels) of the registry. -/
def specSinkMaxLatency (n : Nodes) (c : Connections) (fuel : Nat) : Int :=
  (n.array.filter (fun nd => nd.processor.totalNumOutputChannels == 0)).foldl
    (fun acc nd => max acc (specMaxPathLatency n c fuel nd.nodeID)) 0

/-- Index of the last sink (zero output channels) in a node list. -/
def lastSinkIndex : List Node → Option Nat
  | [] => none
  | x :: xs =>
      match lastSinkIndex xs with
      | some i => some (i + 1)
      | none => if x.processor.totalNumOutputChannels = 0 then some 0 else none

/-- The delays table after the builder has emitted the first `k` ordered
nodes. -/
def delaysUpTo (n : Nodes) (c : Connections) (k : Nat) : DelayMap :=
  (((createOrderedNodeList n c).take k).foldl (latencyStep c) ⟨[], 0⟩).delays

/-- The node-level edge relation of a connection set: some connection leads
from node `u` to node `v` (spec side, for the reachability claims). -/
def Edge (c : Connections) (u v : Nat) : Prop :=
  ∃ p ∈ c.sourcesForDestination, p.1.nodeID = v ∧ ∃ s ∈ p.2, s.nodeID = u

/-- `y` equals `child` or is a strict descendant of `child` (spec side: the
nodes whose exploration can be in progress above `child` on the recursion
stack). -/
abbrev Desc (c : Connections) (child y : Nat) : Prop :=
  y = child ∨ Relation.TransGen (Edge c) child y

/-- Invariant threaded through one level of the source loop of
`getAllParentsOfNode` (relative to the base map `m` of that level):
non-`topChild` entries are untouched, the accumulator only grows, and every
accumulated id that is not on the recursion stack above `child` is closed
under taking ancestors. -/
abbrev GapInv (c : Connections) (top child : Nat) (m m2 : ParentsMap) : Prop :=
  (∀ k, k ≠ top → pmLookup m2 k = pmLookup m k)
  ∧ pmAcc m top ⊆ pmAcc m2 top
  ∧ ∀ x ∈ pmAcc m2 top, ¬ Desc c child x →
      ∀ y, Relation.TransGen (Edge c) y x → y ∈ pmAcc m2 top

/-- Per-source postcondition of the same loop: the source and all of its
ancestors have been accumulated. -/
abbrev GapCov (c : Connections) (top : Nat) (m2 : ParentsMap) (s : Nat) : Prop :=
  s ∈ pmAcc m2 top
  ∧ ∀ u, Relation.TransGen (Edge c) u s → u ∈ pmAcc m2 top

/-- Invariant of the `createOrderedNodeList` fold: the parents map holds an
entry exactly for each processed id, mapping it to its exact set of
ancestors in the connection graph. -/
abbrev RegMapInv (c : Connections) (pm : ParentsMap) (ids : List Nat) : Prop :=
  (∀ k, k ∉ ids → pmLookup pm k = none)
  ∧ ∀ k ∈ ids, ∃ S, pmLookup pm k = some S
      ∧ ∀ u, u ∈ S ↔ Relation.TransGen (Edge c) u k

/-! ## Helper lemmas -/

/-- A successful registry lookup returns a node carrying the requested id. -/
theorem getNodeForId_nodeID {n : Nodes} {i : NodeID} {nd : Node}
    (h : n.getNodeForId i = some nd) : nd.nodeID = i := by
  have := List.find?_some h
  simpa using this

/-- `==` on `Int` is symmetric. -/
theorem intBeq_comm (a b : Int) : (a == b) = (b == a) := by
  by_cases h : a = b
  · simp [h]
  · simp [h, Ne.symm h]

/-! ## C4 — connection legality -/

/-- C4: `isConnectionLegal n c` returns true iff both endpoint nodes exist,
both channel indices are non-negative, the source node differs from the
destination node, both endpoints are of the same kind (audio/MIDI, the MIDI
sentinel denoting the MIDI port), and for audio the channel index is
strictly below the corresponding processor channel count, while for MIDI the
source produces and the destination accepts MIDI. -/
theorem isConnectionLegal_iff (n : Nodes) (c : Connection) :
    isConnectionLegal n c = true ↔
      ((n.getNodeForId c.source.nodeID).isSome = true
        ∧ (n.getNodeForId c.destination.nodeID).isSome = true
        ∧ 0 ≤ c.source.channelIndex
        ∧ 0 ≤ c.destination.channelIndex
        ∧ c.source.nodeID ≠ c.destination.nodeID
        ∧ c.source.isMIDI = c.destination.isMIDI
        ∧ (∀ s, n.getNodeForId c.source.nodeID = some s →
            if c.source.isMIDI then s.processor.producesMidi = true
            else c.source.channelIndex < (s.processor.totalNumOutputChannels : Int))
        ∧ (∀ d, n.getNodeForId c.destination.nodeID = some d →
            if c.destination.isMIDI then d.processor.acceptsMidi = true
            else c.destination.channelIndex < (d.processor.totalNumInputChannels : Int))) := by
  rcases hs : n.getNodeForId c.source.nodeID with _ | s <;>
    rcases hd : n.getNodeForId c.destination.nodeID with _ | d
  · simp [isConnectionLegal, hs, hd]
  · simp [isConnectionLegal, hs, hd]
  · simp [isConnectionLegal, hs, hd]
  · have hsid : s.nodeID = c.source.nodeID := getNodeForId_nodeID hs
    have hdid : d.nodeID = c.destination.nodeID := getNodeForId_nodeID hd
    simp only [isConnectionLegal, hs, hd, Option.map_some', Option.isSome_some,
      Bool.and_eq_true, bne_iff_ne, ne_eq, Option.some.injEq, decide_eq_true_eq,
      beq_iff_eq, forall_eq', true_and]
    constructor
    · rintro ⟨⟨⟨⟨⟨⟨⟨h0s, h0d⟩, hne⟩, hkind⟩, -⟩, hsrc⟩, -⟩, hdst⟩
      refine ⟨h0s, h0d, ?_, ?_, ?_, ?_⟩
      · intro h
        exact hne (by rw [hsid, hdid, h])
      · show (c.source.channelIndex == midiChannelIndex)
            = (c.destination.channelIndex == midiChannelIndex)
        rw [intBeq_comm c.source.channelIndex, intBeq_comm c.destination.channelIndex]
        exact hkind
      · by_cases hm : c.source.channelIndex = midiChannelIndex
        · rw [if_pos hm.symm] at hsrc
          simp [NodeAndChannel.isMIDI, hm, hsrc]
        · rw [if_neg (fun h => hm h.symm)] at hsrc
          simp only [NodeAndChannel.isMIDI, beq_iff_eq, hm, if_false]
          exact of_decide_eq_true hsrc
      · by_cases hm : c.destination.channelIndex = midiChannelIndex
        · rw [if_pos hm.symm] at hdst
          simp [NodeAndChannel.isMIDI, hm, hdst]
        · rw [if_neg (fun h => hm h.symm)] at hdst
          simp only [NodeAndChannel.isMIDI, beq_iff_eq, hm, if_false]
          exact of_decide_eq_true hdst
    · rintro ⟨h0s, h0d, hne, hkind, hsrc, hdst⟩
      refine ⟨⟨⟨⟨⟨⟨⟨h0s, h0d⟩, ?_⟩, ?_⟩, trivial⟩, ?_⟩, trivial⟩, ?_⟩
      · intro h
        exact hne (by rw [← hsid, ← hdid, h])
      · rw [intBeq_comm midiChannelIndex c.source.channelIndex,
          intBeq_comm midiChannelIndex c.destination.channelIndex]
        exact hkind
      · by_cases hm : c.source.channelIndex = midiChannelIndex
        · rw [if_pos hm.symm]
          simpa [NodeAndChannel.isMIDI, hm] using hsrc
        · rw [if_neg (fun h => hm h.symm)]
          simp only [NodeAndChannel.isMIDI, beq_iff_eq, hm, if_false] at hsrc
          exact decide_eq_true hsrc
      · by_cases hm : c.destination.channelIndex = midiChannelIndex
        · rw [if_pos hm.symm]
          simpa [NodeAndChannel.isMIDI, hm] using hdst
        · rw [if_neg (fun h => hm h.symm)]
          simp only [NodeAndChannel.isMIDI, beq_iff_eq, hm, if_false] at hdst
          exact decide_eq_true hdst

/-! ## C8 — add/remove connection -/

/-- `nacLt` is irreflexive. -/
theorem nacLt_irrefl (a : NodeAndChannel) : nacLt a a = false := by
  simp [nacLt]

/-- `nacLt` is transitive. -/
theorem nacLt_trans {a b c : NodeAndChannel} (h1 : nacLt a b = true)
    (h2 : nacLt b c = true) : nacLt a c = true := by
  simp only [nacLt, Bool.or_eq_true, Bool.and_eq_true, decide_eq_true_eq,
    beq_iff_eq] at h1 h2 ⊢
  rcases h1 with h1 | ⟨h1, h1c⟩ <;> rcases h2 with h2 | ⟨h2, h2c⟩
  · exact Or.inl (lt_trans h1 h2)
  · exact Or.inl (h2 ▸ h1)
  · exact Or.inl (h1 ▸ h2)
  · exact Or.inr ⟨h1.trans h2, lt_trans h1c h2c⟩

/-- Membership after a sorted-set insert. -/
theorem mem_setInsertNac {y x : NodeAndChannel} :
    ∀ {l : List NodeAndChannel}, y ∈ setInsertNac x l ↔ y = x ∨ y ∈ l := by
  intro l
  induction l with
  | nil => simp [setInsertNac]
  | cons z zs ih =>
      by_cases hlt : nacLt x z = true
      · simp [setInsertNac, hlt]
      · by_cases heq : x = z
        · subst heq
          rw [setInsertNac, if_neg hlt, if_pos rfl]
          constructor
          · exact Or.inr
          · rintro (h | h)
            · exact h ▸ List.mem_cons_self x zs
            · exact h
        · rw [setInsertNac, if_neg hlt, if_neg heq]
          simp only [List.mem_cons, ih]
          tauto

/-- Erasing a freshly inserted element restores the original set. -/
theorem erase_setInsertNac {x : NodeAndChannel} :
    ∀ {l : List NodeAndChannel}, x ∉ l → (setInsertNac x l).erase x = l := by
  intro l
  induction l with
  | nil => simp [setInsertNac]
  | cons z zs ih =>
      intro hx
      have hxz : x ≠ z := fun h => hx (h ▸ List.mem_cons_self z zs)
      have hxs : x ∉ zs := fun h => hx (List.mem_cons_of_mem z h)
      by_cases hlt : nacLt x z = true
      · simp [setInsertNac, hlt, List.erase_cons_head]
      · rw [setInsertNac, if_neg hlt, if_neg hxz,
          List.erase_cons_tail (by simp [Ne.symm hxz]), ih hxs]

/-- `find?` for a destination after `mapInsertSource`, on a map with sorted
keys: the inserted source lands in the (unique) destination entry. -/
theorem findD_mapInsertSource (d s : NodeAndChannel) :
    ∀ m : List (NodeAndChannel × List NodeAndChannel),
      List.Chain' (fun a b => nacLt a.1 b.1 = true) m →
      (mapInsertSource d s m).find? (fun p => p.1 == d)
        = some (d, match m.find? (fun p => p.1 == d) with
                   | some p => setInsertNac s p.2
                   | none => [s]) := by
  intro m
  induction m with
  | nil => intro _; simp [mapInsertSource]
  | cons e rest ih =>
      intro hchain
      obtain ⟨k, v⟩ := e
      by_cases hlt : nacLt d k = true
      · have hkd : k ≠ d := by
          intro h
          subst h
          simp [nacLt_irrefl] at hlt
        have hrest : rest.find? (fun p => p.1 == d) = none := by
          rw [List.find?_eq_none]
          intro p hp
          haveI : IsTrans (NodeAndChannel × List NodeAndChannel)
              (fun a b => nacLt a.1 b.1 = true) :=
            ⟨fun _ _ _ h1 h2 => nacLt_trans h1 h2⟩
          have hpair := (List.chain'_iff_pairwise.mp hchain)
          have hkp : nacLt k p.1 = true := List.rel_of_pairwise_cons hpair hp
          have hdp : nacLt d p.1 = true := nacLt_trans hlt hkp
          simp only [beq_iff_eq]
          intro h
          rw [h] at hdp
          simp [nacLt_irrefl] at hdp
        have hkdb : (k == d) = false := by simp [hkd]
        simp [mapInsertSource, hlt, List.find?_cons, hkdb, hrest]
      · by_cases heq : d = k
        · subst heq
          simp [mapInsertSource, nacLt_irrefl, List.find?_cons]
        · have hkdb : (k == d) = false := by simp [Ne.symm heq]
          rw [mapInsertSource, if_neg hlt, if_neg heq]
          simp only [List.find?_cons, hkdb]
          exact ih hchain.tail

/-- `find?` for a destination after `mapEraseSource`: the source is erased
from the (first) destination entry. -/
theorem findD_mapEraseSource (d s : NodeAndChannel) :
    ∀ m : List (NodeAndChannel × List NodeAndChannel),
      (mapEraseSource d s m).2.find? (fun p => p.1 == d)
        = (m.find? (fun p => p.1 == d)).map (fun p => (p.1, p.2.erase s)) := by
  intro m
  induction m with
  | nil => simp [mapEraseSource]
  | cons e rest ih =>
      obtain ⟨k, v⟩ := e
      by_cases heq : k = d
      · subst heq
        simp [mapEraseSource, List.find?_cons]
      · have hkd : (k == d) = false := by simp [heq]
        simp only [mapEraseSource, if_neg heq, List.find?_cons, hkd]
        exact ih

/-- `List.contains` agrees with membership. -/
theorem nacContains_iff (l : List NodeAndChannel) (a : NodeAndChannel) :
    l.contains a = true ↔ a ∈ l := List.elem_iff

/-- `List.contains` is false exactly on non-members. -/
theorem nacContains_false_iff (l : List NodeAndChannel) (a : NodeAndChannel) :
    l.contains a = false ↔ a ∉ l := by
  constructor
  · intro h hm
    rw [(nacContains_iff l a).mpr hm] at h
    simp at h
  · intro h
    cases hc : l.contains a
    · rfl
    · exact absurd ((nacContains_iff l a).mp hc) h

/-- The report of `mapEraseSource` is exactly "the destination entry exists
and holds the source". -/
theorem fst_mapEraseSource (d s : NodeAndChannel) :
    ∀ m : List (NodeAndChannel × List NodeAndChannel),
      (mapEraseSource d s m).1
        = match m.find? (fun p => p.1 == d) with
          | some p => p.2.contains s
          | none => false := by
  intro m
  induction m with
  | nil => simp [mapEraseSource]
  | cons e rest ih =>
      obtain ⟨k, v⟩ := e
      by_cases heq : k = d
      · subst heq
        simp [mapEraseSource, List.find?_cons]
      · have hkd : (k == d) = false := by simp [heq]
        simp only [mapEraseSource, if_neg heq, List.find?_cons, hkd]
        exact ih

/-- Erasing an absent connection leaves the map unchanged. -/
theorem mapEraseSource_absent (d s : NodeAndChannel) :
    ∀ m : List (NodeAndChannel × List NodeAndChannel),
      (match m.find? (fun p => p.1 == d) with
       | some p => p.2.contains s
       | none => false) = false →
      (mapEraseSource d s m).2 = m := by
  intro m
  induction m with
  | nil => intro _; simp [mapEraseSource]
  | cons e rest ih =>
      intro hnc
      obtain ⟨k, v⟩ := e
      by_cases heq : k = d
      · subst heq
        simp only [List.find?_cons, beq_self_eq_true] at hnc
        have hsv : v.contains s = false := hnc
        rw [mapEraseSource, if_pos rfl]
        simp [List.erase_of_not_mem ((nacContains_false_iff v s).mp hsv)]
      · have hkdb : (k == d) = false := by simp [heq]
        simp only [List.find?_cons, hkdb] at hnc
        rw [mapEraseSource, if_neg heq]
        simp [ih hnc]

/-- C8: with `canConnect` true, `addConnection` succeeds and the connection
is then connected; a subsequent `removeConnection` reports true and the
connection is then no longer connected.  In general `removeConnection`
reports true exactly when the connection was present, and leaves the state
unchanged when it was absent. -/
theorem addConnection_removeConnection (c : Connections) (n : Nodes)
    (conn : Connection) (hwf : c.wf)
    (hcc : c.canConnect n conn = true) :
    (c.addConnection n conn).1 = true
    ∧ ((c.addConnection n conn).2.isConnected conn) = true
    ∧ (((c.addConnection n conn).2.removeConnection conn).1) = true
    ∧ (((c.addConnection n conn).2.removeConnection conn).2.isConnected conn) = false
    ∧ (∀ c2 : Connections, (c2.removeConnection conn).1 = c2.isConnected conn)
    ∧ (∀ c2 : Connections, c2.isConnected conn = false →
        (c2.removeConnection conn).2 = c2) := by
  have hremrep : ∀ c2 : Connections,
      (c2.removeConnection conn).1 = c2.isConnected conn := by
    intro c2
    rw [Connections.removeConnection, Connections.isConnected,
      fst_mapEraseSource]
  have hremabs : ∀ c2 : Connections, c2.isConnected conn = false →
      (c2.removeConnection conn).2 = c2 := by
    rintro ⟨m⟩ hnc
    rw [Connections.isConnected] at hnc
    have h2 := mapEraseSource_absent conn.destination conn.source m hnc
    rw [Connections.removeConnection]
    exact congrArg Connections.mk h2
  have hncon : c.isConnected conn = false := by
    have h2 := hcc
    rw [Connections.canConnect, Bool.and_eq_true] at h2
    simpa using h2.2
  have hadd : (c.addConnection n conn)
      = (true, ⟨mapInsertSource conn.destination conn.source
          c.sourcesForDestination⟩) := by
    rw [Connections.addConnection, if_pos hcc]
  have hfind := findD_mapInsertSource conn.destination conn.source
    c.sourcesForDestination hwf.1
  rw [Connections.isConnected] at hncon
  have hconn2 : ((⟨mapInsertSource conn.destination conn.source
      c.sourcesForDestination⟩ : Connections).isConnected conn) = true := by
    rw [Connections.isConnected]
    simp only [hfind]
    rcases hfound : c.sourcesForDestination.find?
        (fun p => p.1 == conn.destination) with _ | p
    · rw [hfound]
      exact (nacContains_iff _ _).mpr (List.mem_singleton.mpr rfl)
    · rw [hfound]
      exact (nacContains_iff _ _).mpr (mem_setInsertNac.mpr (Or.inl rfl))
  refine ⟨by rw [hadd], ?_, ?_, ?_, hremrep, hremabs⟩
  · rw [hadd]
    exact hconn2
  · rw [hadd, hremrep]
    exact hconn2
  · rw [hadd, Connections.removeConnection, Connections.isConnected]
    simp only [findD_mapEraseSource, hfind, Option.map_some']
    rcases hfound : c.sourcesForDestination.find?
        (fun p => p.1 == conn.destination) with _ | p
    · rw [hfound]
      simp [List.erase_cons_head]
    · rw [hfound] at hncon ⊢
      have hsv : conn.source ∉ p.2 :=
        (nacContains_false_iff _ _).mp hncon
      rw [erase_setInsertNac hsv]
      exact (nacContains_false_iff _ _).mpr hsv

/-- C8 witness: on the empty connection set with a 1-out / 1-in node pair,
adding the connection 1 → 2 makes it connected, and removing it afterwards
makes it disconnected. -/
theorem addConnection_removeConnection_witness :
    (((Connections.mk []).addConnection
        (Nodes.mk [⟨1, sampleProcessor 0 1 0⟩, ⟨2, sampleProcessor 1 0 0⟩])
        (Connection.mk ⟨1, 0⟩ ⟨2, 0⟩)).2.isConnected
          (Connection.mk ⟨1, 0⟩ ⟨2, 0⟩)) = true
    ∧ ((((Connections.mk []).addConnection
        (Nodes.mk [⟨1, sampleProcessor 0 1 0⟩, ⟨2, sampleProcessor 1 0 0⟩])
        (Connection.mk ⟨1, 0⟩ ⟨2, 0⟩)).2.removeConnection
          (Connection.mk ⟨1, 0⟩ ⟨2, 0⟩)).2.isConnected
            (Connection.mk ⟨1, 0⟩ ⟨2, 0⟩)) = false :=
  have h := addConnection_removeConnection (Connections.mk [])
    (Nodes.mk [⟨1, sampleProcessor 0 1 0⟩, ⟨2, sampleProcessor 1 0 0⟩])
    (Connection.mk ⟨1, 0⟩ ⟨2, 0⟩)
    ⟨List.chain'_nil, fun p hp => absurd hp (List.not_mem_nil p)⟩ (by decide)
  ⟨h.2.1, h.2.2.2.1⟩

/-! ## C9 / C10 — disconnectNode and Pimpl::removeNode -/

/-- After `disconnectNode n`, no map entry mentions `n` on either side. -/
theorem disconnectNode_no_endpoint (c : Connections) (n : NodeID) :
    ∀ p ∈ ((c.disconnectNode n).2).sourcesForDestination,
      p.1.nodeID ≠ n ∧ ∀ s ∈ p.2, s.nodeID ≠ n := by
  intro p hp
  rw [Connections.disconnectNode] at hp
  simp only [List.mem_map] at hp
  obtain ⟨q, hq, hpq⟩ := hp
  rw [List.mem_filter] at hq
  constructor
  · rw [← hpq]
    simpa using hq.2
  · intro s hs
    rw [← hpq] at hs
    simp only [List.mem_filter] at hs
    simpa using hs.2

/-- `disconnectNode n` does not change connectivity of connections that do
not involve `n`. -/
theorem disconnectNode_preserves_other (c : Connections) (n : NodeID)
    (conn : Connection) (hs : conn.source.nodeID ≠ n)
    (hd : conn.destination.nodeID ≠ n) :
    ((c.disconnectNode n).2).isConnected conn = c.isConnected conn := by
  rw [Connections.disconnectNode, Connections.isConnected, Connections.isConnected]
  induction c.sourcesForDestination with
  | nil => rfl
  | cons e rest ih =>
      by_cases hkey : e.1.nodeID = n
      · have hne : e.1 ≠ conn.destination := by
          intro h
          exact hd (h ▸ hkey)
        have hb : (e.1 == conn.destination) = false := by simp [hne]
        simp only [List.filter_cons, hkey, bne_self_eq_false, if_neg, List.find?_cons, hb]
        simpa [hkey] using ih
      · have hb2 : (e.1.nodeID != n) = true := by simp [hkey]
        simp only [List.filter_cons, hb2, if_pos, List.map_cons, List.find?_cons]
        by_cases hdq : e.1 = conn.destination
        · have hb : (e.1 == conn.destination) = true := by simp [hdq]
          simp only [hb]
          cases hc2 : e.2.contains conn.source
          · have hnm : conn.source ∉ e.2 := (nacContains_false_iff _ _).mp hc2
            have : conn.source ∉ e.2.filter (fun s => s.nodeID != n) := by
              intro hmem
              exact hnm (List.mem_of_mem_filter hmem)
            exact (nacContains_false_iff _ _).mpr this
          · have hm : conn.source ∈ e.2 := (nacContains_iff _ _).mp hc2
            have : conn.source ∈ e.2.filter (fun s => s.nodeID != n) :=
              List.mem_filter.mpr ⟨hm, by simp [hs]⟩
            exact (nacContains_iff _ _).mpr this
        · have hb : (e.1 == conn.destination) = false := by simp [hdq]
          simp only [hb]
          exact ih

/-- The report of `disconnectNode n`: true iff some map entry has `n` as its
destination node (even with an empty source set), or some source set
mentions `n`. -/
theorem disconnectNode_report_iff (c : Connections) (n : NodeID) :
    (c.disconnectNode n).1 = true ↔
      ∃ p ∈ c.sourcesForDestination,
        p.1.nodeID = n ∨ ∃ s ∈ p.2, s.nodeID = n := by
  rw [Connections.disconnectNode]
  simp only [Bool.or_eq_true, List.any_eq_true, List.mem_filter, beq_iff_eq,
    bne_iff_ne, ne_eq]
  constructor
  · rintro (⟨p, hp, hpn⟩ | ⟨p, ⟨hp, hpn⟩, s, hs, hsn⟩)
    · exact ⟨p, hp, Or.inl hpn⟩
    · exact ⟨p, hp, Or.inr ⟨s, hs, hsn⟩⟩
  · rintro ⟨p, hp, hpn | ⟨s, hs, hsn⟩⟩
    · exact Or.inl ⟨p, hp, hpn⟩
    · by_cases hkey : p.1.nodeID = n
      · exact Or.inl ⟨p, hp, hkey⟩
      · exact Or.inr ⟨p, ⟨hp, hkey⟩, s, hs, hsn⟩

/-- C9 (counterexample): a reachable connection-set state (obtained from the
empty state by `addConnection` then `removeConnection`, third conjunct) in
which no connection exists at all (second conjunct: every source set is
empty), yet `disconnectNode 2` reports true (first conjunct) because the
empty destination entry for node 2 is still present.  This refutes "the call
returns true exactly when at least one connection involving n existed
beforehand". -/
theorem disconnectNode_report_counterexample :
    ((Connections.mk [(⟨2, 0⟩, [])]).disconnectNode 2).1 = true
    ∧ (Connections.mk [(⟨2, 0⟩, [])]).sourcesForDestination.all
        (fun p => p.2.isEmpty) = true
    ∧ ((((Connections.mk []).addConnection
          (Nodes.mk [⟨1, sampleProcessor 0 1 0⟩, ⟨2, sampleProcessor 1 0 0⟩])
          (Connection.mk ⟨1, 0⟩ ⟨2, 0⟩)).2.removeConnection
            (Connection.mk ⟨1, 0⟩ ⟨2, 0⟩)).2
        = Connections.mk [(⟨2, 0⟩, [])]) := by
  refine ⟨rfl, rfl, ?_⟩
  decide

/-- C9 (amended): after `disconnectNode n` no connection has `n` as either
endpoint, connections not involving `n` are unchanged, and the call returns
true exactly when a destination map entry for node `n` existed (possibly
with an empty source set) or some source set mentioned `n`. -/
theorem disconnectNode_spec (c : Connections) (n : NodeID) :
    (∀ p ∈ ((c.disconnectNode n).2).sourcesForDestination,
        p.1.nodeID ≠ n ∧ ∀ s ∈ p.2, s.nodeID ≠ n)
    ∧ (∀ conn : Connection, conn.source.nodeID ≠ n →
        conn.destination.nodeID ≠ n →
        ((c.disconnectNode n).2).isConnected conn = c.isConnected conn)
    ∧ ((c.disconnectNode n).1 = true ↔
        ∃ p ∈ c.sourcesForDestination,
          p.1.nodeID = n ∨ ∃ s ∈ p.2, s.nodeID = n) :=
  ⟨disconnectNode_no_endpoint c n,
   fun conn hs hd => disconnectNode_preserves_other c n conn hs hd,
   disconnectNode_report_iff c n⟩

/-- C9 witness: on the one-connection state 1 → 2, `disconnectNode 1`
reports true, and `disconnectNode 3` leaves the connection 1 → 2 as
connected as before. -/
theorem disconnectNode_spec_witness :
    ((Connections.mk [(⟨2, 0⟩, [⟨1, 0⟩])]).disconnectNode 1).1 = true
    ∧ ((Connections.mk [(⟨2, 0⟩, [⟨1, 0⟩])]).disconnectNode 3).2.isConnected
        (Connection.mk ⟨1, 0⟩ ⟨2, 0⟩)
      = (Connections.mk [(⟨2, 0⟩, [⟨1, 0⟩])]).isConnected
          (Connection.mk ⟨1, 0⟩ ⟨2, 0⟩) :=
  ⟨(disconnectNode_spec (Connections.mk [(⟨2, 0⟩, [⟨1, 0⟩])]) 1).2.2.mpr
      (by decide),
   (disconnectNode_spec (Connections.mk [(⟨2, 0⟩, [⟨1, 0⟩])]) 3).2.1
      (Connection.mk ⟨1, 0⟩ ⟨2, 0⟩) (by decide) (by decide)⟩

/-- C10: `Pimpl::removeNode` disconnects before removing: afterwards no
connection references the id on either side; it returns the removed node,
or `none` with the registry unchanged when no node with that id exists; and
in that case, on states satisfying the topology invariant (every id in the
connection map belongs to the registry), the disconnection is a no-op. -/
theorem pimplRemoveNode_spec (n : Nodes) (c : Connections) (nodeID : NodeID) :
    (∀ p ∈ ((pimplRemoveNode n c nodeID).2.2).sourcesForDestination,
        p.1.nodeID ≠ nodeID ∧ ∀ s ∈ p.2, s.nodeID ≠ nodeID)
    ∧ ((pimplRemoveNode n c nodeID).1 = none ↔ n.getNodeForId nodeID = none)
    ∧ ((pimplRemoveNode n c nodeID).1 = none →
        (pimplRemoveNode n c nodeID).2.1 = n)
    ∧ (∀ nd, (pimplRemoveNode n c nodeID).1 = some nd →
        nd.nodeID = nodeID ∧ nd ∈ n.array)
    ∧ (n.getNodeForId nodeID = none →
        (∀ p ∈ c.sourcesForDestination,
          (n.getNodeForId p.1.nodeID).isSome = true ∧
            ∀ s ∈ p.2, (n.getNodeForId s.nodeID).isSome = true) →
        (pimplRemoveNode n c nodeID).2.2 = c) := by
  refine ⟨disconnectNode_no_endpoint c nodeID, ?_, ?_, ?_, ?_⟩
  · rw [pimplRemoveNode, Nodes.removeNode]
    rcases hf : n.array.find? (fun nd => nd.nodeID == nodeID) with _ | nd
    · simp [Nodes.getNodeForId, hf]
    · simp [Nodes.getNodeForId, hf]
  · intro h
    rw [pimplRemoveNode, Nodes.removeNode] at h ⊢
    rcases hf : n.array.find? (fun nd => nd.nodeID == nodeID) with _ | nd
    · simp [hf]
    · rw [hf] at h
      simp at h
  · intro nd h
    rw [pimplRemoveNode, Nodes.removeNode] at h
    rcases hf : n.array.find? (fun x => x.nodeID == nodeID) with _ | nd2
    · rw [hf] at h
      simp at h
    · rw [hf] at h
      simp only [Option.some.injEq] at h
      subst h
      exact ⟨getNodeForId_nodeID hf, List.mem_of_find?_eq_some hf⟩
  · intro habs hinv
    rw [pimplRemoveNode, Connections.disconnectNode]
    have hkeys : ∀ p ∈ c.sourcesForDestination, p.1.nodeID ≠ nodeID := by
      intro p hp h
      have h1 := (hinv p hp).1
      rw [h, habs] at h1
      simp at h1
    have hsrcs : ∀ p ∈ c.sourcesForDestination, ∀ s ∈ p.2,
        s.nodeID ≠ nodeID := by
      intro p hp s hs h
      have h1 := (hinv p hp).2 s hs
      rw [h, habs] at h1
      simp at h1
    have hfilter : c.sourcesForDestination.filter
        (fun p => p.1.nodeID != nodeID) = c.sourcesForDestination :=
      List.filter_eq_self.mpr (fun p hp => by simp [hkeys p hp])
    simp only [hfilter]
    have hmap : c.sourcesForDestination.map
        (fun p => (p.1, p.2.filter (fun s => s.nodeID != nodeID)))
        = c.sourcesForDestination := by
      have : ∀ p ∈ c.sourcesForDestination,
          (p.1, p.2.filter (fun s => s.nodeID != nodeID)) = p := by
        intro p hp
        have : p.2.filter (fun s => s.nodeID != nodeID) = p.2 :=
          List.filter_eq_self.mpr (fun s hsm => by simp [hsrcs p hp s hsm])
        rw [this]
      calc c.sourcesForDestination.map
            (fun p => (p.1, p.2.filter (fun s => s.nodeID != nodeID)))
          = c.sourcesForDestination.map id := List.map_congr_left this
        _ = c.sourcesForDestination := List.map_id _
    rw [hmap]

/-- C10 witness: removing the absent node id 2 from a one-node registry with
no connections returns the registry and the connection set unchanged. -/
theorem pimplRemoveNode_spec_witness :
    (pimplRemoveNode (Nodes.mk [⟨1, sampleProcessor 0 1 0⟩])
        (Connections.mk []) 2).2.1 = Nodes.mk [⟨1, sampleProcessor 0 1 0⟩]
    ∧ (pimplRemoveNode (Nodes.mk [⟨1, sampleProcessor 0 1 0⟩])
        (Connections.mk []) 2).2.2 = Connections.mk [] :=
  have h := pimplRemoveNode_spec (Nodes.mk [⟨1, sampleProcessor 0 1 0⟩])
    (Connections.mk []) 2
  ⟨h.2.2.1 (by decide), h.2.2.2.2 (by decide) (by decide)⟩

/-! ## C2 — precision adapter of ProcessOp::callProcess -/

/-- C2: evaluation of the embedded code at the failing input.  In a float
render sequence whose processor reports `isUsingDoublePrecision`, the
`callProcess` float overload copies into `tempBufferDouble` — declared
`AudioBuffer<float>` on source line 708 — so overload resolution invokes the
float `processBlock`, *not* the processor's active double precision.  (The
double-sequence branch and both matching branches behave as the claim
states; only this case diverges.) -/
theorem callProcess_precision_divergence :
    callProcessSampleType SampleType.flt true = SampleType.flt
    ∧ activePrecisionType true = SampleType.dbl
    ∧ callProcessSampleType SampleType.flt true ≠ activePrecisionType true
    ∧ callProcessSampleType SampleType.dbl false = activePrecisionType false
    ∧ callProcessSampleType SampleType.dbl true = activePrecisionType true
    ∧ callProcessSampleType SampleType.flt false = activePrecisionType false := by
  decide

/-! ## C3 — settings drift in processBlock -/

/-- C3: `Pimpl::processBlock` executes the live sequence exactly when one
exists and its settings equal the last-requested settings; in every other
case (no live sequence, or differing settings) it writes silence into the
caller's audio buffer and clears the caller's MIDI buffer, independent of
the stale sequence's ops. -/
theorem processBlock_settings_drift (state : Option ModelSequence)
    (lastRequested : Option PrepareSettings) (audio midi : List Int) :
    (∀ s, state = some s → lastRequested = some s.settings →
        pimplProcessBlock state lastRequested audio midi = s.process audio midi)
    ∧ ((∀ s, state = some s → lastRequested ≠ some s.settings) →
        pimplProcessBlock state lastRequested audio midi
          = (audio.map (fun _ => 0), [])) := by
  constructor
  · rintro s rfl h
    simp [pimplProcessBlock, h]
  · intro h
    cases state with
    | none => rfl
    | some s => simp [pimplProcessBlock, h s rfl]

/-- C3 witness: with matching settings the one-op sequence runs (producing
([5], [7])); after requesting different settings the caller's buffers are
zeroed and the MIDI cleared, the op never running. -/
theorem processBlock_settings_drift_witness :
    pimplProcessBlock
        (some ⟨⟨SampleType.flt, 44100, 512⟩, [fun _ => ([5], [7])]⟩)
        (some ⟨SampleType.flt, 44100, 512⟩) [1, 2] [3] = ([5], [7])
    ∧ pimplProcessBlock
        (some ⟨⟨SampleType.flt, 44100, 512⟩, [fun _ => ([5], [7])]⟩)
        (some ⟨SampleType.flt, 48000, 256⟩) [1, 2] [3] = ([0, 0], []) :=
  ⟨((processBlock_settings_drift
      (some ⟨⟨SampleType.flt, 44100, 512⟩, [fun _ => ([5], [7])]⟩)
      (some ⟨SampleType.flt, 44100, 512⟩) [1, 2] [3]).1 _ rfl rfl).trans rfl,
   ((processBlock_settings_drift
      (some ⟨⟨SampleType.flt, 44100, 512⟩, [fun _ => ([5], [7])]⟩)
      (some ⟨SampleType.flt, 48000, 256⟩) [1, 2] [3]).2
      (fun s hs => by cases hs; decide)).trans rfl⟩

/-! ## C5 — getConnections: strict sortedness and membership -/

/-- `connLt` is irreflexive. -/
theorem connLt_irrefl (a : Connection) : connLt a a = false := by
  simp [connLt]

/-- `connLt` is transitive. -/
theorem connLt_trans {a b c : Connection} (h1 : connLt a b = true)
    (h2 : connLt b c = true) : connLt a c = true := by
  obtain ⟨⟨sa, sca⟩, ⟨da, dca⟩⟩ := a
  obtain ⟨⟨sb, scb⟩, ⟨db, dcb⟩⟩ := b
  obtain ⟨⟨sc, scc⟩, ⟨dc, dcc⟩⟩ := c
  simp only [connLt, Bool.or_eq_true, Bool.and_eq_true, decide_eq_true_eq,
    beq_iff_eq] at h1 h2 ⊢
  omega

/-- Two mutually non-less connections are equal. -/
theorem connLt_connex {a b : Connection} (h1 : connLt a b = false)
    (h2 : connLt b a = false) : a = b := by
  obtain ⟨⟨sa, sca⟩, ⟨da, dca⟩⟩ := a
  obtain ⟨⟨sb, scb⟩, ⟨db, dcb⟩⟩ := b
  simp only [connLt, Bool.or_eq_false_iff, Bool.and_eq_false_iff,
    decide_eq_false_iff_not, beq_eq_false_iff_ne, ne_eq, not_lt] at h1 h2
  simp only [Connection.mk.injEq, NodeAndChannel.mk.injEq]
  obtain ⟨h1a, h1b⟩ := h1
  obtain ⟨h2a, h2b⟩ := h2
  omega

/-- `connLe` is transitive. -/
theorem connLe_trans (a b c : Connection) (h1 : connLe a b = true)
    (h2 : connLe b c = true) : connLe a c = true := by
  rw [connLe, Bool.not_eq_true'] at h1 h2 ⊢
  cases hca : connLt c a
  · rfl
  · exfalso
    cases hbc : connLt b c
    · have hbeq : b = c := connLt_connex hbc h2
      rw [hbeq] at h1
      rw [h1] at hca
      cases hca
    · have hba : connLt b a = true := connLt_trans hbc hca
      rw [hba] at h1
      cases h1

/-- `connLe` is total. -/
theorem connLe_total (a b : Connection) : (connLe a b || connLe b a) = true := by
  rw [connLe, connLe]
  cases hba : connLt b a
  · rfl
  · cases hab : connLt a b
    · rfl
    · exfalso
      have h2 := connLt_trans hab hba
      rw [connLt_irrefl] at h2
      cases h2

/-- A `connLe`-pairwise tail, prefixed by its previously kept element,
destutters to a strict `connLt` chain. -/
theorem chain'_uniqueAdjacentFrom :
    ∀ (l : List Connection) (prev : Connection),
      List.Pairwise (fun a b => connLe a b = true) (prev :: l) →
      List.Chain' (fun a b => connLt a b = true)
        (prev :: uniqueAdjacentFrom prev l) := by
  intro l
  induction l with
  | nil => intro prev _; simp [uniqueAdjacentFrom]
  | cons b rest ih =>
      intro prev hp
      rw [List.pairwise_cons] at hp
      obtain ⟨hple, hrest⟩ := hp
      by_cases hbp : b = prev
      · rw [uniqueAdjacentFrom, if_pos (by simp [hbp])]
        apply ih prev
        rw [List.pairwise_cons]
        exact ⟨fun x hx => hple x (List.mem_cons_of_mem b hx),
          (List.pairwise_cons.mp hrest).2⟩
      · rw [uniqueAdjacentFrom, if_neg (by simp [hbp])]
        have hlt : connLt prev b = true := by
          have hle : connLe prev b = true := hple b (List.mem_cons_self b rest)
          rw [connLe, Bool.not_eq_true'] at hle
          cases hpb : connLt prev b
          · exact absurd (connLt_connex hpb hle) (Ne.symm hbp)
          · rfl
        exact List.chain'_cons.mpr ⟨hlt, ih b hrest⟩

/-- `uniqueAdjacentFrom` only returns elements of its input. -/
theorem mem_of_mem_uniqueAdjacentFrom {x : Connection} :
    ∀ {l : List Connection} {prev : Connection},
      x ∈ uniqueAdjacentFrom prev l → x ∈ l := by
  intro l
  induction l with
  | nil => intro prev h; simp [uniqueAdjacentFrom] at h
  | cons b rest ih =>
      intro prev h
      rw [uniqueAdjacentFrom] at h
      by_cases hbp : (b == prev) = true
      · rw [if_pos hbp] at h
        exact List.mem_cons_of_mem b (ih h)
      · rw [if_neg hbp] at h
        rcases List.mem_cons.mp h with h2 | h2
        · exact h2 ▸ List.mem_cons_self b rest
        · exact List.mem_cons_of_mem b (ih h2)

/-- Every input element of `uniqueAdjacentFrom` survives, or equals the
previously kept element. -/
theorem mem_uniqueAdjacentFrom_of_mem {x : Connection} :
    ∀ {l : List Connection} {prev : Connection},
      x ∈ l → x = prev ∨ x ∈ uniqueAdjacentFrom prev l := by
  intro l
  induction l with
  | nil => intro prev h; simp at h
  | cons b rest ih =>
      intro prev h
      rw [uniqueAdjacentFrom]
      by_cases hbp : (b == prev) = true
      · rw [if_pos hbp]
        rcases List.mem_cons.mp h with h2 | h2
        · exact Or.inl (h2.trans (by simpa using hbp))
        · exact ih h2
      · rw [if_neg hbp]
        rcases List.mem_cons.mp h with h2 | h2
        · exact Or.inr (h2 ▸ List.mem_cons_self b _)
        · rcases @ih b h2 with h3 | h3
          · exact Or.inr (h3 ▸ List.mem_cons_self b _)
          · exact Or.inr (List.mem_cons_of_mem b h3)

/-- `uniqueAdjacent` preserves membership. -/
theorem mem_uniqueAdjacent {x : Connection} :
    ∀ {l : List Connection}, x ∈ uniqueAdjacent l ↔ x ∈ l := by
  intro l
  cases l with
  | nil => simp [uniqueAdjacent]
  | cons a rest =>
      rw [uniqueAdjacent]
      constructor
      · intro h
        rcases List.mem_cons.mp h with h2 | h2
        · exact h2 ▸ List.mem_cons_self a rest
        · exact List.mem_cons_of_mem a (mem_of_mem_uniqueAdjacentFrom h2)
      · intro h
        rcases List.mem_cons.mp h with h2 | h2
        · exact h2 ▸ List.mem_cons_self a _
        · rcases @mem_uniqueAdjacentFrom_of_mem x rest a h2 with h3 | h3
          · exact h3 ▸ List.mem_cons_self a _
          · exact List.mem_cons_of_mem a h3

/-- The raw flattened pair list of `getConnections` contains a connection
iff some map entry witnesses it. -/
theorem mem_rawConnections {c : Connections} {conn : Connection} :
    conn ∈ c.sourcesForDestination.flatMap
        (fun p => p.2.map (fun s => Connection.mk s p.1)) ↔
      ∃ p ∈ c.sourcesForDestination,
        p.1 = conn.destination ∧ conn.source ∈ p.2 := by
  rw [List.mem_flatMap]
  constructor
  · rintro ⟨p, hp, hm⟩
    rw [List.mem_map] at hm
    obtain ⟨s, hs, hconn⟩ := hm
    subst hconn
    exact ⟨p, hp, rfl, hs⟩
  · rintro ⟨p, hp, hdest, hsrc⟩
    refine ⟨p, hp, ?_⟩
    rw [List.mem_map]
    exact ⟨conn.source, hsrc, by rw [hdest]⟩

/-- On a key-sorted map, the entry found for a key is the only entry with
that key. -/
theorem find?_key_unique {m : List (NodeAndChannel × List NodeAndChannel)}
    {k : NodeAndChannel} {p q : NodeAndChannel × List NodeAndChannel}
    (hchain : List.Chain' (fun a b => nacLt a.1 b.1 = true) m)
    (hp : p ∈ m) (hq : m.find? (fun e => e.1 == k) = some q)
    (hpk : p.1 = k) : p = q := by
  induction m with
  | nil => simp at hp
  | cons e rest ih =>
      rw [List.find?_cons] at hq
      by_cases hek : (e.1 == k) = true
      · simp only [hek, Option.some.injEq] at hq
        rcases List.mem_cons.mp hp with h2 | h2
        · exact h2.trans hq
        · exfalso
          haveI : IsTrans (NodeAndChannel × List NodeAndChannel)
              (fun a b => nacLt a.1 b.1 = true) :=
            ⟨fun _ _ _ h1 h2 => nacLt_trans h1 h2⟩
          have hpair := List.chain'_iff_pairwise.mp hchain
          have hlt : nacLt e.1 p.1 = true := List.rel_of_pairwise_cons hpair h2
          rw [hpk, (by simpa using hek : e.1 = k)] at hlt
          rw [nacLt_irrefl] at hlt
          cases hlt
      · rw [Bool.not_eq_true] at hek
        simp only [hek] at hq
        rcases List.mem_cons.mp hp with h2 | h2
        · exfalso
          rw [← h2] at hek
          simp [hpk] at hek
        · exact ih hchain.tail h2 hq

/-- C5: `getConnections` is sorted in strictly increasing `Connection`
order (hence duplicate-free), and on well-formed (reachable) states a
connection is connected iff it is an element of `getConnections`. -/
theorem getConnections_spec (c : Connections) :
    List.Chain' (fun a b => connLt a b = true) c.getConnections
    ∧ (c.wf → ∀ conn : Connection,
        c.isConnected conn = true ↔ conn ∈ c.getConnections) := by
  constructor
  · rw [Connections.getConnections]
    have hsorted := @List.sorted_mergeSort Connection connLe
      (fun a b c2 => connLe_trans a b c2) connLe_total
      (c.sourcesForDestination.flatMap
        (fun p => p.2.map (fun s => Connection.mk s p.1)))
    rcases hms : (c.sourcesForDestination.flatMap
        (fun p => p.2.map (fun s => Connection.mk s p.1))).mergeSort connLe
        with _ | ⟨a, rest⟩
    · simp [uniqueAdjacent]
    · rw [hms] at hsorted
      exact chain'_uniqueAdjacentFrom rest a hsorted
  · intro hwf conn
    rw [Connections.getConnections, mem_uniqueAdjacent,
      (List.mergeSort_perm _ connLe).mem_iff, mem_rawConnections,
      Connections.isConnected]
    constructor
    · intro h
      rcases hf : c.sourcesForDestination.find?
          (fun p => p.1 == conn.destination) with _ | q
      · rw [hf] at h
        cases h
      · rw [hf] at h
        have hq1 : q.1 = conn.destination := by
          simpa using List.find?_some hf
        exact ⟨q, List.mem_of_find?_eq_some hf, hq1,
          (nacContains_iff _ _).mp h⟩
    · rintro ⟨p, hp, hdest, hsrc⟩
      rcases hf : c.sourcesForDestination.find?
          (fun e => e.1 == conn.destination) with _ | q
      · exfalso
        rw [List.find?_eq_none] at hf
        exact hf p hp (by simp [hdest])
      · rw [hf]
        have hpq : p = q := find?_key_unique hwf.1 hp hf hdest
        rw [← hpq]
        exact (nacContains_iff _ _).mpr hsrc

/-- C5 witness: on the well-formed one-connection state 1 → 2, the
connection 1 → 2 is connected iff it appears in `getConnections`, and the
result list is strictly sorted. -/
theorem getConnections_spec_witness :
    List.Chain' (fun a b => connLt a b = true)
      (Connections.mk [(⟨2, 0⟩, [⟨1, 0⟩])]).getConnections
    ∧ ((Connections.mk [(⟨2, 0⟩, [⟨1, 0⟩])]).isConnected
        (Connection.mk ⟨1, 0⟩ ⟨2, 0⟩) = true ↔
      Connection.mk ⟨1, 0⟩ ⟨2, 0⟩
        ∈ (Connections.mk [(⟨2, 0⟩, [⟨1, 0⟩])]).getConnections) :=
  ⟨(getConnections_spec (Connections.mk [(⟨2, 0⟩, [⟨1, 0⟩])])).1,
   (getConnections_spec (Connections.mk [(⟨2, 0⟩, [⟨1, 0⟩])])).2
      ⟨List.chain'_singleton _, fun p hp => by
        rw [List.mem_singleton] at hp
        subst hp
        exact List.chain'_singleton _⟩
      (Connection.mk ⟨1, 0⟩ ⟨2, 0⟩)⟩

/-! ## C1 — reported latency of the compiled sequence -/

/-- C1 (counterexample): in the three-node registry {1: source with latency
100 and one output, 2: sink fed by 1, 3: isolated sink}, the claim-side
quantity (maximum over all sinks of the maximal cumulative path latency) is
100, but the builder reports 0: the per-node emission executes
`totalLatency = maxLatency` — a plain assignment, not
`max (totalLatency, maxLatency)` — so sink 3, visited after sink 2, lowers
the reported value to its own input latency 0. -/
theorem builderTotalLatency_counterexample :
    builderTotalLatency
        (Nodes.mk [⟨1, sampleProcessor 0 1 100⟩, ⟨2, sampleProcessor 1 0 0⟩,
          ⟨3, sampleProcessor 0 0 0⟩])
        (Connections.mk [(⟨2, 0⟩, [⟨1, 0⟩])]) = 0
    ∧ specSinkMaxLatency
        (Nodes.mk [⟨1, sampleProcessor 0 1 100⟩, ⟨2, sampleProcessor 1 0 0⟩,
          ⟨3, sampleProcessor 0 0 0⟩])
        (Connections.mk [(⟨2, 0⟩, [⟨1, 0⟩])]) 3 = 100 := by
  refine ⟨?_, ?_⟩ <;> decide

/-- With no sink in the list, the latency fold leaves `totalLatency`
untouched. -/
theorem foldl_latencyStep_total_no_sink (c : Connections) :
    ∀ (l : List Node) (st : LatencyState), lastSinkIndex l = none →
      (l.foldl (latencyStep c) st).totalLatency = st.totalLatency := by
  intro l
  induction l with
  | nil => intro st _; rfl
  | cons y ys ih =>
      intro st h
      rw [lastSinkIndex] at h
      rcases h2 : lastSinkIndex ys with _ | j
      · rw [h2] at h
        by_cases hy : y.processor.totalNumOutputChannels = 0
        · rw [if_pos hy] at h
          cases h
        · rw [List.foldl_cons, ih (latencyStep c st y) h2]
          rw [latencyStep]
          simp [hy]
      · rw [h2] at h
        cases h

/-- The latency fold ends with the `totalLatency` assigned at the last sink:
the maximal input latency that sink saw at its own emission step. -/
theorem foldl_latencyStep_total_last_sink (c : Connections) :
    ∀ (l : List Node) (st : LatencyState) (i : Nat) (x : Node),
      lastSinkIndex l = some i → l[i]? = some x →
      (l.foldl (latencyStep c) st).totalLatency
        = getInputLatencyForNode ((l.take i).foldl (latencyStep c) st).delays
            c x.nodeID := by
  intro l
  induction l with
  | nil => intro st i x h _; cases h
  | cons y ys ih =>
      intro st i x h hget
      rw [lastSinkIndex] at h
      rcases h2 : lastSinkIndex ys with _ | j
      · rw [h2] at h
        by_cases hy : y.processor.totalNumOutputChannels = 0
        · rw [if_pos hy] at h
          have hi : i = 0 := by
            simpa using h.symm
          subst hi
          simp only [List.getElem?_cons_zero, Option.some.injEq] at hget
          subst hget
          rw [List.foldl_cons,
            foldl_latencyStep_total_no_sink c ys (latencyStep c st y) h2]
          rw [List.take_zero, List.foldl_nil, latencyStep]
          simp [hy]
        · rw [if_neg hy] at h
          cases h
      · rw [h2] at h
        simp only [Option.some.injEq] at h
        subst h
        rw [List.getElem?_cons_succ] at hget
        rw [List.foldl_cons, ih (latencyStep c st y) j x h2 hget,
          List.take_succ_cons, List.foldl_cons]

/-- C1 (amended): the reported latency of the compiled sequence equals the
maximal cumulative input latency of the *last* sink in the compiler's node
order (or 0 when there is no sink) — a later sink with a smaller input
latency *does* lower the reported value, because the per-node emission
overwrites `totalLatency` rather than taking a maximum. -/
theorem builderTotalLatency_eq_last_sink (n : Nodes) (c : Connections) :
    (lastSinkIndex (createOrderedNodeList n c) = none →
      builderTotalLatency n c = 0)
    ∧ (∀ i x, lastSinkIndex (createOrderedNodeList n c) = some i →
        (createOrderedNodeList n c)[i]? = some x →
        builderTotalLatency n c
          = getInputLatencyForNode (delaysUpTo n c i) c x.nodeID) := by
  constructor
  · intro h
    rw [builderTotalLatency, builderLatencyState]
    rw [foldl_latencyStep_total_no_sink c _ _ h]
  · intro i x h hget
    rw [builderTotalLatency, builderLatencyState]
    rw [foldl_latencyStep_total_last_sink c _ _ i x h hget]
    rfl

/-- C1 (amended) witness: on the counterexample graph the last sink in the
order [1, 2, 3] is node 3 (index 2), and the reported latency equals node
3's input latency at its emission step. -/
theorem builderTotalLatency_eq_last_sink_witness :
    builderTotalLatency
        (Nodes.mk [⟨1, sampleProcessor 0 1 100⟩, ⟨2, sampleProcessor 1 0 0⟩,
          ⟨3, sampleProcessor 0 0 0⟩])
        (Connections.mk [(⟨2, 0⟩, [⟨1, 0⟩])])
      = getInputLatencyForNode
          (delaysUpTo
            (Nodes.mk [⟨1, sampleProcessor 0 1 100⟩, ⟨2, sampleProcessor 1 0 0⟩,
              ⟨3, sampleProcessor 0 0 0⟩])
            (Connections.mk [(⟨2, 0⟩, [⟨1, 0⟩])]) 2)
          (Connections.mk [(⟨2, 0⟩, [⟨1, 0⟩])]) 3 :=
  (builderTotalLatency_eq_last_sink
      (Nodes.mk [⟨1, sampleProcessor 0 1 100⟩, ⟨2, sampleProcessor 1 0 0⟩,
        ⟨3, sampleProcessor 0 0 0⟩])
      (Connections.mk [(⟨2, 0⟩, [⟨1, 0⟩])])).2
    2 ⟨3, sampleProcessor 0 0 0⟩ (by decide) (by decide)

/-! ## C6 — isAnInputTo is reachability -/

/-- Membership after a sorted-set insert of a node id. -/
theorem mem_setInsertNat {y x : Nat} :
    ∀ {l : List Nat}, y ∈ setInsertNat x l ↔ y = x ∨ y ∈ l := by
  intro l
  induction l with
  | nil => simp [setInsertNat]
  | cons z zs ih =>
      by_cases hlt : x < z
      · simp [setInsertNat, hlt]
      · by_cases heq : x = z
        · subst heq
          rw [setInsertNat, if_neg hlt, if_pos rfl]
          constructor
          · exact Or.inr
          · rintro (h | h)
            · exact h ▸ List.mem_cons_self x zs
            · exact h
        · rw [setInsertNat, if_neg hlt, if_neg heq]
          simp only [List.mem_cons, ih]
          tauto

/-- Membership in an insert-fold of node ids. -/
theorem mem_foldl_setInsertNat {y : Nat} :
    ∀ (l : List Nat) (init : List Nat),
      (y ∈ l.foldl (fun acc s => setInsertNat s acc) init) ↔ y ∈ l ∨ y ∈ init := by
  intro l
  induction l with
  | nil => intro init; simp
  | cons s rest ih =>
      intro init
      rw [List.foldl_cons, ih, mem_setInsertNat]
      simp only [List.mem_cons]
      tauto

/-- `getSourceNodesForDestination` contains exactly the edge-predecessors. -/
theorem mem_sourceNodes_iff_edge {c : Connections} {u v : Nat} :
    u ∈ c.getSourceNodesForDestination v ↔ Edge c u v := by
  rw [Connections.getSourceNodesForDestination, mem_foldl_setInsertNat]
  simp only [List.not_mem_nil, or_false]
  rw [List.mem_flatMap]
  constructor
  · rintro ⟨p, hp, hm⟩
    rw [List.mem_filter] at hp
    rw [List.mem_map] at hm
    obtain ⟨s, hs, hu⟩ := hm
    exact ⟨p, hp.1, by simpa using hp.2, s, hs, hu⟩
  · rintro ⟨p, hp, hv, s, hs, hu⟩
    exact ⟨p, List.mem_filter.mpr ⟨hp, by simp [hv]⟩,
      List.mem_map.mpr ⟨s, hs, hu⟩⟩

/-- A source node id is mentioned in the connection map. -/
theorem source_mem_mentioned {c : Connections} {u v : Nat}
    (h : u ∈ c.getSourceNodesForDestination v) : u ∈ c.mentioned := by
  rw [mem_sourceNodes_iff_edge] at h
  obtain ⟨p, hp, _, s, hs, hu⟩ := h
  rw [Connections.mentioned, List.mem_toFinset, List.mem_flatMap]
  exact ⟨p, hp, List.mem_cons_of_mem _ (List.mem_map.mpr ⟨s, hs, hu⟩)⟩

/-- A destination with at least one source is mentioned in the map. -/
theorem dest_mem_mentioned {c : Connections} {v : Nat}
    (h : c.getSourceNodesForDestination v ≠ []) : v ∈ c.mentioned := by
  obtain ⟨u, hu⟩ := List.exists_mem_of_ne_nil _ h
  rw [mem_sourceNodes_iff_edge] at hu
  obtain ⟨p, hp, hv, -⟩ := hu
  rw [Connections.mentioned, List.mem_toFinset, List.mem_flatMap]
  exact ⟨p, hp, hv ▸ List.mem_cons_self _ _⟩

/-- Folding a step that only grows the visited set only grows the visited
set. -/
theorem foldl_mono_visited (step : SearchState → Nat → SearchState)
    (hstep : ∀ acc s, acc.visited ⊆ (step acc s).visited) :
    ∀ (l : List Nat) (acc : SearchState),
      acc.visited ⊆ (l.foldl step acc).visited := by
  intro l
  induction l with
  | nil => intro acc; exact Finset.Subset.refl _
  | cons s rest ih =>
      intro acc
      rw [List.foldl_cons]
      exact (hstep acc s).trans (ih (step acc s))

/-- Folding a step that preserves a set found flag preserves it. -/
theorem foldl_mono_found (step : SearchState → Nat → SearchState)
    (hstep : ∀ acc s, acc.found = true → (step acc s).found = true) :
    ∀ (l : List Nat) (acc : SearchState),
      acc.found = true → (l.foldl step acc).found = true := by
  intro l
  induction l with
  | nil => intro acc h; exact h
  | cons s rest ih =>
      intro acc h
      rw [List.foldl_cons]
      exact ih (step acc s) (hstep acc s h)

/-- The visited set of `getConnectedRecursive` only grows. -/
theorem gcr_visited_mono (c : Connections) (src : Nat) :
    ∀ (fuel d : Nat) (st : SearchState),
      st.visited ⊆ (getConnectedRecursive c src fuel d st).visited := by
  intro fuel
  induction fuel with
  | zero =>
      intro d st
      simp only [getConnectedRecursive]
      exact Finset.Subset.refl _
  | succ f ih =>
      intro d st
      simp only [getConnectedRecursive]
      refine Finset.Subset.trans (Finset.subset_insert d st.visited)
        (foldl_mono_visited _ ?_ (c.getSourceNodesForDestination d)
          ⟨insert d st.visited, st.found⟩)
      intro acc s
      by_cases h1 : (acc.found || s == src) = true
      · rw [if_pos h1]
      · rw [if_neg h1]
        by_cases h2 : s ∈ acc.visited
        · rw [if_pos h2]
        · rw [if_neg h2]
          exact ih s acc

/-- The found flag of `getConnectedRecursive` never resets. -/
theorem gcr_found_mono (c : Connections) (src : Nat) :
    ∀ (fuel d : Nat) (st : SearchState),
      st.found = true → (getConnectedRecursive c src fuel d st).found = true := by
  intro fuel
  induction fuel with
  | zero =>
      intro d st h
      simpa only [getConnectedRecursive] using h
  | succ f ih =>
      intro d st h
      simp only [getConnectedRecursive]
      refine foldl_mono_found _ ?_ _ _ h
      intro acc s hacc
      by_cases h1 : (acc.found || s == src) = true
      · rw [if_pos h1]
      · rw [if_neg h1]
        rw [Bool.or_eq_true] at h1
        exact absurd (Or.inl hacc) h1

/-- One fold step of the search preserves the found flag. -/
theorem gcrStep_found_mono (c : Connections) (src : Nat) (f : Nat) :
    ∀ (acc : SearchState) (s : Nat), acc.found = true →
      ((if acc.found || s == src then (⟨acc.visited, true⟩ : SearchState)
        else if s ∈ acc.visited then acc
        else getConnectedRecursive c src f s acc)).found = true := by
  intro acc s hacc
  by_cases h1 : (acc.found || s == src) = true
  · rw [if_pos h1]
  · rw [Bool.or_eq_true] at h1
    exact absurd (Or.inl hacc) h1

/-- Soundness of the search: a set found flag means a directed path from
`src` to `d` exists. -/
theorem gcr_sound (c : Connections) (src : Nat) :
    ∀ (fuel d : Nat) (st : SearchState),
      (getConnectedRecursive c src fuel d st).found = true →
      st.found = true ∨ Relation.TransGen (Edge c) src d := by
  intro fuel
  induction fuel with
  | zero =>
      intro d st h
      simp only [getConnectedRecursive] at h
      exact Or.inl h
  | succ f ih =>
      intro d st h
      simp only [getConnectedRecursive] at h
      have haux : ∀ (l : List Nat), (∀ s ∈ l, Edge c s d) →
          ∀ (acc : SearchState),
          (l.foldl (fun acc s =>
            if acc.found || s == src then ⟨acc.visited, true⟩
            else if s ∈ acc.visited then acc
            else getConnectedRecursive c src f s acc) acc).found = true →
          acc.found = true ∨ Relation.TransGen (Edge c) src d := by
        intro l
        induction l with
        | nil =>
            intro _ acc h2
            exact Or.inl h2
        | cons s rest ihl =>
            intro hmem acc h2
            rw [List.foldl_cons] at h2
            by_cases h1 : (acc.found || s == src) = true
            · rw [if_pos h1] at h2
              rw [Bool.or_eq_true] at h1
              rcases h1 with h3 | h3
              · exact Or.inl h3
              · right
                have hs : s = src := by simpa using h3
                exact Relation.TransGen.single
                  (hs ▸ hmem s (List.mem_cons_self s rest))
            · rw [if_neg h1] at h2
              by_cases hv : s ∈ acc.visited
              · rw [if_pos hv] at h2
                exact ihl (fun t ht => hmem t (List.mem_cons_of_mem s ht)) acc h2
              · rw [if_neg hv] at h2
                rcases ihl (fun t ht => hmem t (List.mem_cons_of_mem s ht))
                    (getConnectedRecursive c src f s acc) h2 with h3 | h3
                · rcases ih s acc h3 with h4 | h4
                  · exact Or.inl h4
                  · right
                    exact Relation.TransGen.tail h4
                      (hmem s (List.mem_cons_self s rest))
                · exact Or.inr h3
      exact haux (c.getSourceNodesForDestination d)
        (fun s hs => mem_sourceNodes_iff_edge.mp hs)
        ⟨insert d st.visited, st.found⟩ h

/-- Completeness invariant of the search: a run that ends without finding
`src` has visited `d`, and the newly visited region is closed under taking
sources, none of which is `src`. -/
theorem gcr_complete (c : Connections) (src : Nat) :
    ∀ (fuel d : Nat) (st : SearchState),
      d ∉ st.visited →
      (c.mentioned \ st.visited).card + 1 ≤ fuel →
      (getConnectedRecursive c src fuel d st).found = false →
      d ∈ (getConnectedRecursive c src fuel d st).visited
      ∧ (∀ x ∈ (getConnectedRecursive c src fuel d st).visited,
          x ∉ st.visited →
          ∀ s ∈ c.getSourceNodesForDestination x,
            s ≠ src ∧ s ∈ (getConnectedRecursive c src fuel d st).visited) := by
  intro fuel
  induction fuel with
  | zero =>
      intro d st _ hfuel _
      exact absurd hfuel (by omega)
  | succ f ih =>
      intro d st hd hfuel h
      simp only [getConnectedRecursive] at h ⊢
      by_cases hnil : c.getSourceNodesForDestination d = []
      · rw [hnil] at h ⊢
        rw [List.foldl_nil] at h ⊢
        refine ⟨Finset.mem_insert_self d st.visited, ?_⟩
        intro x hx hnx s hs
        have hxd : x = d := by
          rcases Finset.mem_insert.mp hx with h2 | h2
          · exact h2
          · exact absurd h2 hnx
        rw [hxd, hnil] at hs
        cases hs
      · have hdm : d ∈ c.mentioned := dest_mem_mentioned hnil
        have hbound : (c.mentioned \ insert d st.visited).card + 1 ≤ f := by
          have hss : c.mentioned \ insert d st.visited
              ⊂ c.mentioned \ st.visited := by
            refine Finset.ssubset_iff_of_subset
              (Finset.sdiff_subset_sdiff (Finset.Subset.refl _)
                (Finset.subset_insert d st.visited)) |>.mpr ?_
            exact ⟨d, Finset.mem_sdiff.mpr ⟨hdm, hd⟩,
              fun hc => (Finset.mem_sdiff.mp hc).2 (Finset.mem_insert_self d _)⟩
          have := Finset.card_lt_card hss
          omega
        have haux : ∀ (l : List Nat), (∀ s ∈ l, s ∈ c.getSourceNodesForDestination d) →
            ∀ (acc : SearchState),
            (c.mentioned \ acc.visited).card + 1 ≤ f →
            (l.foldl (fun acc s =>
              if acc.found || s == src then ⟨acc.visited, true⟩
              else if s ∈ acc.visited then acc
              else getConnectedRecursive c src f s acc) acc).found = false →
            acc.visited ⊆ (l.foldl (fun acc s =>
              if acc.found || s == src then ⟨acc.visited, true⟩
              else if s ∈ acc.visited then acc
              else getConnectedRecursive c src f s acc) acc).visited
            ∧ (∀ s ∈ l, s ≠ src ∧ s ∈ (l.foldl (fun acc s =>
                if acc.found || s == src then ⟨acc.visited, true⟩
                else if s ∈ acc.visited then acc
                else getConnectedRecursive c src f s acc) acc).visited)
            ∧ (∀ x ∈ (l.foldl (fun acc s =>
                if acc.found || s == src then ⟨acc.visited, true⟩
                else if s ∈ acc.visited then acc
                else getConnectedRecursive c src f s acc) acc).visited,
                x ∉ acc.visited →
                ∀ s2 ∈ c.getSourceNodesForDestination x,
                  s2 ≠ src ∧ s2 ∈ (l.foldl (fun acc s =>
                    if acc.found || s == src then ⟨acc.visited, true⟩
                    else if s ∈ acc.visited then acc
                    else getConnectedRecursive c src f s acc) acc).visited) := by
          intro l
          induction l with
          | nil =>
              intro _ acc _ _
              rw [List.foldl_nil]
              exact ⟨Finset.Subset.refl _, fun s hs => absurd hs (List.not_mem_nil s),
                fun x hx hnx => absurd hx hnx⟩
          | cons s rest ihl =>
              intro hmem acc hfb hfound
              rw [List.foldl_cons] at hfound ⊢
              by_cases h1 : (acc.found || s == src) = true
              · exfalso
                rw [if_pos h1] at hfound
                have h2 := foldl_mono_found _ (gcrStep_found_mono c src f)
                  rest ⟨acc.visited, true⟩ rfl
                rw [h2] at hfound
                cases hfound
              · rw [if_neg h1] at hfound ⊢
                have hsne : s ≠ src := by
                  intro hcon
                  rw [Bool.or_eq_true] at h1
                  exact h1 (Or.inr (by simp [hcon]))
                by_cases hv : s ∈ acc.visited
                · rw [if_pos hv] at hfound ⊢
                  obtain ⟨hsub2, hall, hclo⟩ :=
                    ihl (fun t ht => hmem t (List.mem_cons_of_mem s ht)) acc hfb hfound
                  refine ⟨hsub2, ?_, hclo⟩
                  intro t ht
                  rcases List.mem_cons.mp ht with h2 | h2
                  · exact ⟨h2 ▸ hsne, h2 ▸ hsub2 hv⟩
                  · exact hall t h2
                · rw [if_neg hv] at hfound ⊢
                  have hrecfound :
                      (getConnectedRecursive c src f s acc).found = false := by
                    cases hx : (getConnectedRecursive c src f s acc).found
                    · rfl
                    · exfalso
                      have h2 := foldl_mono_found _ (gcrStep_found_mono c src f)
                        rest (getConnectedRecursive c src f s acc) hx
                      rw [h2] at hfound
                      cases hfound
                  obtain ⟨hsin, hcloS⟩ := ih s acc hv hfb hrecfound
                  have hsub3 : acc.visited
                      ⊆ (getConnectedRecursive c src f s acc).visited :=
                    gcr_visited_mono c src f s acc
                  have hfb2 : (c.mentioned \
                      (getConnectedRecursive c src f s acc).visited).card + 1 ≤ f := by
                    have hsd := Finset.card_le_card
                      (Finset.sdiff_subset_sdiff (Finset.Subset.refl c.mentioned) hsub3)
                    omega
                  obtain ⟨hsub4, hall, hclo⟩ :=
                    ihl (fun t ht => hmem t (List.mem_cons_of_mem s ht))
                      (getConnectedRecursive c src f s acc) hfb2 hfound
                  refine ⟨hsub3.trans hsub4, ?_, ?_⟩
                  · intro t ht
                    rcases List.mem_cons.mp ht with h2 | h2
                    · exact ⟨h2 ▸ hsne, h2 ▸ hsub4 hsin⟩
                    · exact hall t h2
                  · intro x hx hnx
                    by_cases hx2 : x ∈ (getConnectedRecursive c src f s acc).visited
                    · intro s2 hs2
                      obtain ⟨hs2ne, hs2in⟩ := hcloS x hx2 hnx s2 hs2
                      exact ⟨hs2ne, hsub4 hs2in⟩
                    · exact hclo x hx hx2
        obtain ⟨hsub, hall, hclo⟩ := haux (c.getSourceNodesForDestination d)
          (fun s hs => hs) ⟨insert d st.visited, st.found⟩ hbound h
        refine ⟨hsub (Finset.mem_insert_self d st.visited), ?_⟩
        intro x hx hnx s hs
        by_cases hxd : x = d
        · subst hxd
          exact hall s hs
        · refine hclo x hx ?_ s hs
          intro hc
          rcases Finset.mem_insert.mp hc with h2 | h2
          · exact hxd h2
          · exact hnx h2

/-- C6: `isAnInputTo a b` returns true iff there is a directed path of one
or more connections from `a` to `b`; in particular `isAnInputTo a a` is
true exactly when a cycle passes through `a`.  (The C++ recursion's
termination-by-visited-set appears here as the provably sufficient fuel
`mentioned.card + 1`.) -/
theorem isAnInputTo_iff_path (c : Connections) (a b : Nat) :
    c.isAnInputTo a b = true ↔ Relation.TransGen (Edge c) a b := by
  constructor
  · intro h
    rw [Connections.isAnInputTo] at h
    rcases gcr_sound c a (c.mentioned.card + 1) b ⟨∅, false⟩ h with h2 | h2
    · cases h2
    · exact h2
  · intro hpath
    by_contra hnot
    rw [Bool.not_eq_true, Connections.isAnInputTo] at hnot
    obtain ⟨hbin, hclo⟩ := gcr_complete c a (c.mentioned.card + 1) b ⟨∅, false⟩
      (Finset.not_mem_empty b) (by simp) hnot
    have hkey : ∀ u, Relation.TransGen (Edge c) u b →
        u ∈ (getConnectedRecursive c a (c.mentioned.card + 1) b
          ⟨∅, false⟩).visited ∧ u ≠ a := by
      intro u hu
      induction hu using Relation.TransGen.head_induction_on with
      | base hedge =>
          have h2 := hclo b hbin (Finset.not_mem_empty b) _
            (mem_sourceNodes_iff_edge.mpr hedge)
          exact ⟨h2.2, h2.1⟩
      | ih hedge htrans ih2 =>
          have h2 := hclo _ ih2.1 (Finset.not_mem_empty _) _
            (mem_sourceNodes_iff_edge.mpr hedge)
          exact ⟨h2.2, h2.1⟩
    exact (hkey a hpath).2 rfl

/-! ## C7 — createOrderedNodeList is a topological order on acyclic graphs -/

/-- Looking up the key just stored. -/
theorem pmLookup_pmSet_self (m : ParentsMap) (k : Nat) (v : Finset Nat) :
    pmLookup (pmSet m k v) k = some v := by
  induction m with
  | nil => simp [pmSet, pmLookup]
  | cons e rest ih =>
      by_cases h : e.1 = k
      · rw [pmSet, if_pos h]
        simp [pmLookup]
      · rw [pmSet, if_neg h]
        have hb : (e.1 == k) = false := by simp [h]
        simp only [pmLookup, List.find?_cons, hb]
        exact ih

/-- Storing one key does not affect lookups of other keys. -/
theorem pmLookup_pmSet_other (m : ParentsMap) (k k' : Nat) (v : Finset Nat)
    (h : k' ≠ k) : pmLookup (pmSet m k v) k' = pmLookup m k' := by
  induction m with
  | nil =>
      have hb : (k == k') = false := by simp [Ne.symm h]
      simp [pmSet, pmLookup, hb]
  | cons e rest ih =>
      by_cases h2 : e.1 = k
      · rw [pmSet, if_pos h2]
        have hb : (k == k') = false := by simp [Ne.symm h]
        have hb2 : (e.1 == k') = false := by simp [h2, Ne.symm h]
        simp only [pmLookup, List.find?_cons, hb, hb2]
      · rw [pmSet, if_neg h2]
        by_cases h3 : e.1 = k'
        · have hb : (e.1 == k') = true := by simp [h3]
          simp only [pmLookup, List.find?_cons, hb]
        · have hb : (e.1 == k') = false := by simp [h3]
          simp only [pmLookup, List.find?_cons, hb]
          exact ih

/-- The insertion scan never exceeds the list length. -/
theorem findInsertionIndex_le_length (m : ParentsMap) (nid : Nat) :
    ∀ result : List Node, findInsertionIndex m nid result ≤ result.length := by
  intro result
  induction result with
  | nil => simp [findInsertionIndex]
  | cons r rest ih =>
      rw [findInsertionIndex]
      by_cases h : nid ∈ (pmLookup m r.nodeID).getD ∅
      · rw [if_pos h]
        simp
      · rw [if_neg h]
        simpa using ih

/-- Minimality of the insertion scan: the new node is no parent of any
occupant left of the found index. -/
theorem findInsertionIndex_take (m : ParentsMap) (nid : Nat) :
    ∀ result : List Node,
      ∀ x ∈ result.take (findInsertionIndex m nid result),
        nid ∉ (pmLookup m x.nodeID).getD ∅ := by
  intro result
  induction result with
  | nil => simp
  | cons r rest ih =>
      rw [findInsertionIndex]
      by_cases h : nid ∈ (pmLookup m r.nodeID).getD ∅
      · rw [if_pos h]
        simp
      · rw [if_neg h]
        rw [List.take_succ_cons]
        intro x hx
        rcases List.mem_cons.mp hx with h2 | h2
        · exact h2 ▸ h
        · exact ih x h2

/-- When the insertion scan stops inside the list, the occupant at the found
index has the new node among its parents. -/
theorem findInsertionIndex_hit (m : ParentsMap) (nid : Nat) :
    ∀ (result : List Node)
      (h : findInsertionIndex m nid result < result.length),
      nid ∈ (pmLookup m (result.get
        ⟨findInsertionIndex m nid result, h⟩).nodeID).getD ∅ := by
  intro result
  induction result with
  | nil => intro h; simp [findInsertionIndex] at h
  | cons r rest ih =>
      intro h
      by_cases h2 : nid ∈ (pmLookup m r.nodeID).getD ∅
      · simp only [findInsertionIndex, if_pos h2]
        simpa using h2
      · have hidx : findInsertionIndex m nid (r :: rest)
            = findInsertionIndex m nid rest + 1 := by
          rw [findInsertionIndex, if_neg h2]
        have h3 : findInsertionIndex m nid rest < rest.length := by
          rw [hidx] at h
          simpa using h
        have := ih h3
        simp only [hidx]
        simpa using this

/-- `insertIdx` splits as take ++ element ++ drop. -/
theorem insertIdx_eq_take_cons_drop {α : Type} (a : α) :
    ∀ (l : List α) (i : Nat), i ≤ l.length →
      l.insertIdx i a = l.take i ++ a :: l.drop i := by
  intro l
  induction l with
  | nil =>
      intro i h
      have : i = 0 := by simpa using h
      subst this
      simp
  | cons x xs ih =>
      intro i h
      cases i with
      | zero => simp
      | succ j =>
          rw [List.insertIdx_succ_cons, List.take_succ_cons, List.drop_succ_cons,
            ih j (by simpa using h), List.cons_append]

/-- Generic invariant preservation through a fold over node ids with a side
condition on the ids. -/
theorem foldl_pm_invariant (step : ParentsMap → Nat → ParentsMap)
    (P : ParentsMap → Prop) (Q : Nat → Prop)
    (hstep : ∀ m s, Q s → P m → P (step m s)) :
    ∀ (l : List Nat), (∀ s ∈ l, Q s) → ∀ (m : ParentsMap),
      P m → P (l.foldl step m) := by
  intro l
  induction l with
  | nil => intro _ m h; exact h
  | cons s rest ih =>
      intro hq m h
      rw [List.foldl_cons]
      exact ih (fun t ht => hq t (List.mem_cons_of_mem s ht)) _
        (hstep m s (hq s (List.mem_cons_self s rest)) h)

/-- The accumulator entry just stored. -/
theorem pmAcc_pmSet_self (m : ParentsMap) (k : Nat) (v : Finset Nat) :
    pmAcc (pmSet m k v) k = v := by
  rw [pmAcc, pmLookup_pmSet_self]
  rfl

/-- `getAllParentsOfNode` changes only the `topChild` entry of the threaded
map. -/
theorem gap_lookup_other (c : Connections) (top : Nat) :
    ∀ (fuel child : Nat) (m : ParentsMap) (k : Nat), k ≠ top →
      pmLookup (getAllParentsOfNode c top fuel child m) k = pmLookup m k := by
  intro fuel
  induction fuel with
  | zero =>
      intro child m k _
      simp [getAllParentsOfNode]
  | succ f ih =>
      intro child m k hk
      simp only [getAllParentsOfNode]
      refine foldl_pm_invariant _ (fun m2 => pmLookup m2 k = pmLookup m k)
        (fun _ => True) ?_ _ (fun _ _ => trivial) m rfl
      intro m0 s _ hP
      by_cases h1 : s = child
      · rw [if_pos h1]
        exact hP
      · rw [if_neg h1]
        by_cases h2 : s ∈ pmAcc m0 top
        · rw [if_pos h2]
          exact hP
        · rw [if_neg h2]
          rcases h3 : pmLookup (pmSet m0 top (insert s (pmAcc m0 top))) s
              with _ | S
          · show pmLookup (getAllParentsOfNode c top f s
                (pmSet m0 top (insert s (pmAcc m0 top)))) k = pmLookup m k
            rw [ih s _ k hk, pmLookup_pmSet_other _ _ _ _ hk]
            exact hP
          · show pmLookup (pmSet (pmSet m0 top (insert s (pmAcc m0 top))) top
                (insert s (pmAcc m0 top) ∪ S)) k = pmLookup m k
            rw [pmLookup_pmSet_other _ _ _ _ hk,
              pmLookup_pmSet_other _ _ _ _ hk]
            exact hP

/-- The accumulator entry of `getAllParentsOfNode` only grows. -/
theorem gap_acc_mono (c : Connections) (top : Nat) :
    ∀ (fuel child : Nat) (m : ParentsMap),
      pmAcc m top ⊆ pmAcc (getAllParentsOfNode c top fuel child m) top := by
  intro fuel
  induction fuel with
  | zero =>
      intro child m
      simp only [getAllParentsOfNode]
      exact Finset.Subset.refl _
  | succ f ih =>
      intro child m
      simp only [getAllParentsOfNode]
      refine foldl_pm_invariant _ (fun m2 => pmAcc m top ⊆ pmAcc m2 top)
        (fun _ => True) ?_ _ (fun _ _ => trivial) m (Finset.Subset.refl _)
      intro m0 s _ hP
      by_cases h1 : s = child
      · rw [if_pos h1]
        exact hP
      · rw [if_neg h1]
        by_cases h2 : s ∈ pmAcc m0 top
        · rw [if_pos h2]
          exact hP
        · rw [if_neg h2]
          rcases h3 : pmLookup (pmSet m0 top (insert s (pmAcc m0 top))) s
              with _ | S
          · show pmAcc m top ⊆ pmAcc (getAllParentsOfNode c top f s
                (pmSet m0 top (insert s (pmAcc m0 top)))) top
            refine hP.trans (Finset.Subset.trans ?_ (ih s _))
            rw [pmAcc_pmSet_self]
            exact Finset.subset_insert s _
          · show pmAcc m top ⊆ pmAcc (pmSet (pmSet m0 top
                (insert s (pmAcc m0 top))) top
                (insert s (pmAcc m0 top) ∪ S)) top
            refine hP.trans ?_
            rw [pmAcc_pmSet_self]
            exact (Finset.subset_insert s _).trans Finset.subset_union_left

/-- Soundness of `getAllParentsOfNode`: every id the call adds to the
accumulator is an ancestor of `child` (assuming sound memo entries). -/
theorem gap_sound (c : Connections) (top : Nat) :
    ∀ (fuel child : Nat) (m : ParentsMap),
      (∀ k S, k ≠ top → pmLookup m k = some S →
        ∀ u ∈ S, Relation.TransGen (Edge c) u k) →
      ∀ u ∈ pmAcc (getAllParentsOfNode c top fuel child m) top,
        u ∈ pmAcc m top ∨ Relation.TransGen (Edge c) u child := by
  intro fuel
  induction fuel with
  | zero =>
      intro child m _ u hu
      simp only [getAllParentsOfNode] at hu
      exact Or.inl hu
  | succ f ih =>
      intro child m hmemo
      simp only [getAllParentsOfNode]
      refine foldl_pm_invariant _
        (fun m2 => (∀ k, k ≠ top → pmLookup m2 k = pmLookup m k)
          ∧ ∀ u ∈ pmAcc m2 top,
              u ∈ pmAcc m top ∨ Relation.TransGen (Edge c) u child)
        (fun s => Edge c s child) ?_ _
        (fun s hs => mem_sourceNodes_iff_edge.mp hs) m
        ⟨fun _ _ => rfl, fun u hu => Or.inl hu⟩ |>.2
      intro m0 s hedge hP
      obtain ⟨hPk, hPu⟩ := hP
      by_cases h1 : s = child
      · rw [if_pos h1]
        exact ⟨hPk, hPu⟩
      · rw [if_neg h1]
        by_cases h2 : s ∈ pmAcc m0 top
        · rw [if_pos h2]
          exact ⟨hPk, hPu⟩
        · rw [if_neg h2]
          rcases h3 : pmLookup (pmSet m0 top (insert s (pmAcc m0 top))) s
              with _ | S
          · show (∀ k, k ≠ top →
                pmLookup (getAllParentsOfNode c top f s
                  (pmSet m0 top (insert s (pmAcc m0 top)))) k = pmLookup m k)
              ∧ ∀ u ∈ pmAcc (getAllParentsOfNode c top f s
                  (pmSet m0 top (insert s (pmAcc m0 top)))) top,
                u ∈ pmAcc m top ∨ Relation.TransGen (Edge c) u child
            constructor
            · intro k hk
              rw [gap_lookup_other c top f s _ k hk,
                pmLookup_pmSet_other _ _ _ _ hk]
              exact hPk k hk
            · intro u hu
              have hmemo1 : ∀ k S2, k ≠ top →
                  pmLookup (pmSet m0 top (insert s (pmAcc m0 top))) k = some S2 →
                  ∀ v ∈ S2, Relation.TransGen (Edge c) v k := by
                intro k S2 hk hlk v hv
                rw [pmLookup_pmSet_other _ _ _ _ hk, hPk k hk] at hlk
                exact hmemo k S2 hk hlk v hv
              rcases ih s _ hmemo1 u hu with h4 | h4
              · rw [pmAcc_pmSet_self] at h4
                rcases Finset.mem_insert.mp h4 with h5 | h5
                · exact Or.inr (h5 ▸ Relation.TransGen.single hedge)
                · exact hPu u h5
              · exact Or.inr (Relation.TransGen.tail h4 hedge)
          · show (∀ k, k ≠ top →
                pmLookup (pmSet (pmSet m0 top (insert s (pmAcc m0 top))) top
                  (insert s (pmAcc m0 top) ∪ S)) k = pmLookup m k)
              ∧ ∀ u ∈ pmAcc (pmSet (pmSet m0 top (insert s (pmAcc m0 top))) top
                  (insert s (pmAcc m0 top) ∪ S)) top,
                u ∈ pmAcc m top ∨ Relation.TransGen (Edge c) u child
            constructor
            · intro k hk
              rw [pmLookup_pmSet_other _ _ _ _ hk,
                pmLookup_pmSet_other _ _ _ _ hk]
              exact hPk k hk
            · intro u hu
              rw [pmAcc_pmSet_self] at hu
              rcases Finset.mem_union.mp hu with h4 | h4
              · rcases Finset.mem_insert.mp h4 with h5 | h5
                · exact Or.inr (h5 ▸ Relation.TransGen.single hedge)
                · exact hPu u h5
              · by_cases hst : s = top
                · subst hst
                  rw [pmLookup_pmSet_self] at h3
                  simp only [Option.some.injEq] at h3
                  rw [← h3] at h4
                  rcases Finset.mem_insert.mp h4 with h5 | h5
                  · exact Or.inr (h5 ▸ Relation.TransGen.single hedge)
                  · exact hPu u h5
                · rw [pmLookup_pmSet_other _ _ _ _ hst, hPk s hst] at h3
                  have h6 := hmemo s S hst h3 u h4
                  exact Or.inr (Relation.TransGen.tail h6 hedge)

/-- Fold invariant with per-element postconditions that persist through the
remaining iterations. -/
theorem foldl_pm_strong (step : ParentsMap → Nat → ParentsMap)
    (P : ParentsMap → Prop) (C : ParentsMap → Nat → Prop) (Q : Nat → Prop)
    (hstep : ∀ m s, Q s → P m → P (step m s) ∧ C (step m s) s)
    (hpersist : ∀ m s t, Q s → P m → C m t → C (step m s) t) :
    ∀ (l : List Nat), (∀ s ∈ l, Q s) → ∀ (m : ParentsMap), P m →
      P (l.foldl step m) ∧ (∀ t, C m t → C (l.foldl step m) t)
        ∧ ∀ s ∈ l, C (l.foldl step m) s := by
  intro l
  induction l with
  | nil =>
      intro _ m h
      exact ⟨h, fun t ht => ht, by simp⟩
  | cons s rest ih =>
      intro hq m hP
      rw [List.foldl_cons]
      obtain ⟨hP1, hC1⟩ := hstep m s (hq s (List.mem_cons_self s rest)) hP
      obtain ⟨hP2, hKeep, hAll⟩ :=
        ih (fun t ht => hq t (List.mem_cons_of_mem s ht)) _ hP1
      refine ⟨hP2, ?_, ?_⟩
      · intro t ht
        exact hKeep t (hpersist m s t (hq s (List.mem_cons_self s rest)) hP ht)
      · intro t ht
        rcases List.mem_cons.mp ht with h3 | h3
        · subst h3
          exact hKeep t hC1
        · exact hAll t h3

/-- `getAllParentsOfNode` keeps the `topChild` entry present. -/
theorem gap_lookup_top (c : Connections) (top : Nat) :
    ∀ (fuel child : Nat) (m : ParentsMap),
      (pmLookup m top).isSome = true →
      (pmLookup (getAllParentsOfNode c top fuel child m) top).isSome = true := by
  intro fuel
  induction fuel with
  | zero =>
      intro child m h
      simpa [getAllParentsOfNode] using h
  | succ f ih =>
      intro child m h
      simp only [getAllParentsOfNode]
      refine foldl_pm_invariant _ (fun m2 => (pmLookup m2 top).isSome = true)
        (fun _ => True) ?_ _ (fun _ _ => trivial) m h
      intro m0 s _ hP
      by_cases h1 : s = child
      · rw [if_pos h1]
        exact hP
      · rw [if_neg h1]
        by_cases h2 : s ∈ pmAcc m0 top
        · rw [if_pos h2]
          exact hP
        · rw [if_neg h2]
          rcases h3 : pmLookup (pmSet m0 top (insert s (pmAcc m0 top))) s
              with _ | S
          · show (pmLookup (getAllParentsOfNode c top f s
                (pmSet m0 top (insert s (pmAcc m0 top)))) top).isSome = true
            refine ih s _ ?_
            rw [pmLookup_pmSet_self]
            rfl
          · show (pmLookup (pmSet (pmSet m0 top (insert s (pmAcc m0 top))) top
                (insert s (pmAcc m0 top) ∪ S)) top).isSome = true
            rw [pmLookup_pmSet_self]
            rfl

/-- Completeness of `getAllParentsOfNode` on acyclic graphs: with sufficient
fuel, correct memo entries and an accumulator that is ancestor-closed off the
recursion stack, the call accumulates every ancestor of `child`, and the
closure invariant is restored. -/
theorem gap_complete (c : Connections) (top : Nat)
    (hacyc : ∀ v, ¬ Relation.TransGen (Edge c) v v) :
    ∀ (fuel child : Nat) (m : ParentsMap),
      (child = top ∨ Relation.TransGen (Edge c) child top) →
      (c.mentioned \ pmAcc m top).card < fuel →
      (∀ k S, k ≠ top → pmLookup m k = some S →
        ∀ u, u ∈ S ↔ Relation.TransGen (Edge c) u k) →
      (∀ x ∈ pmAcc m top, ¬ Desc c child x →
        ∀ y, Relation.TransGen (Edge c) y x → y ∈ pmAcc m top) →
      (∀ u, Relation.TransGen (Edge c) u child →
          u ∈ pmAcc (getAllParentsOfNode c top fuel child m) top)
      ∧ ∀ x ∈ pmAcc (getAllParentsOfNode c top fuel child m) top,
          ¬ Desc c child x →
          ∀ y, Relation.TransGen (Edge c) y x →
            y ∈ pmAcc (getAllParentsOfNode c top fuel child m) top := by
  intro fuel
  induction fuel with
  | zero =>
      intro child m _ hfuel _ _
      exact absurd hfuel (Nat.not_lt_zero _)
  | succ f ih =>
      intro child m hchild hfuel hmemo hinv
      have hNotDescBack : ∀ s, Edge c s child → ¬ Desc c child s := by
        intro s hs hd
        rcases hd with h | h
        · exact hacyc child (Relation.TransGen.single (h ▸ hs))
        · exact hacyc child (Relation.TransGen.tail h hs)
      have hSneTop : ∀ s, Edge c s child → s ≠ top := by
        intro s hs hst
        rcases hchild with h | h
        · rw [h, ← hst] at hs
          exact hacyc s (Relation.TransGen.single hs)
        · rw [← hst] at h
          exact hacyc child (Relation.TransGen.tail h hs)
      have hgrow : ∀ (m0 : ParentsMap) (s : Nat),
          pmAcc m0 top ⊆ pmAcc
            (if s = child then m0
             else if s ∈ pmAcc m0 top then m0
             else
               match pmLookup (pmSet m0 top (insert s (pmAcc m0 top))) s with
               | some S =>
                   pmSet (pmSet m0 top (insert s (pmAcc m0 top))) top
                     (insert s (pmAcc m0 top) ∪ S)
               | none =>
                   getAllParentsOfNode c top f s
                     (pmSet m0 top (insert s (pmAcc m0 top)))) top := by
        intro m0 s
        by_cases h1 : s = child
        · rw [if_pos h1]
        · rw [if_neg h1]
          by_cases h2 : s ∈ pmAcc m0 top
          · rw [if_pos h2]
          · rw [if_neg h2]
            rcases h3 : pmLookup (pmSet m0 top (insert s (pmAcc m0 top))) s
                with _ | S
            · show pmAcc m0 top ⊆ pmAcc (getAllParentsOfNode c top f s
                  (pmSet m0 top (insert s (pmAcc m0 top)))) top
              refine Finset.Subset.trans ?_ (gap_acc_mono c top f s _)
              rw [pmAcc_pmSet_self]
              exact Finset.subset_insert s _
            · show pmAcc m0 top ⊆ pmAcc (pmSet (pmSet m0 top
                  (insert s (pmAcc m0 top))) top
                  (insert s (pmAcc m0 top) ∪ S)) top
              rw [pmAcc_pmSet_self]
              exact (Finset.subset_insert s _).trans Finset.subset_union_left
      have hstepBig : ∀ (m0 : ParentsMap) (s : Nat) (m1 : ParentsMap),
          m1 = (if s = child then m0
             else if s ∈ pmAcc m0 top then m0
             else
               match pmLookup (pmSet m0 top (insert s (pmAcc m0 top))) s with
               | some S =>
                   pmSet (pmSet m0 top (insert s (pmAcc m0 top))) top
                     (insert s (pmAcc m0 top) ∪ S)
               | none =>
                   getAllParentsOfNode c top f s
                     (pmSet m0 top (insert s (pmAcc m0 top)))) →
          Edge c s child → GapInv c top child m m0 →
          GapInv c top child m m1 ∧ GapCov c top m1 s := by
        intro m0 s m1 hm1 hedge hP
        obtain ⟨hPk, hPsub, hPinv⟩ := hP
        subst hm1
        by_cases h1 : s = child
        · exact absurd (Relation.TransGen.single (h1 ▸ hedge)) (hacyc child)
        · rw [if_neg h1]
          by_cases h2 : s ∈ pmAcc m0 top
          · rw [if_pos h2]
            exact ⟨⟨hPk, hPsub, hPinv⟩, h2,
              fun y hy => hPinv s h2 (hNotDescBack s hedge) y hy⟩
          · rw [if_neg h2]
            rcases h3 : pmLookup (pmSet m0 top (insert s (pmAcc m0 top))) s
                with _ | S
            · show GapInv c top child m (getAllParentsOfNode c top f s
                  (pmSet m0 top (insert s (pmAcc m0 top))))
                ∧ GapCov c top (getAllParentsOfNode c top f s
                  (pmSet m0 top (insert s (pmAcc m0 top)))) s
              have hneT := hSneTop s hedge
              have hs_m : s ∈ c.mentioned :=
                source_mem_mentioned (mem_sourceNodes_iff_edge.mpr hedge)
              have hchild2 : s = top ∨ Relation.TransGen (Edge c) s top := by
                rcases hchild with h | h
                · exact Or.inr (Relation.TransGen.single (h ▸ hedge))
                · exact Or.inr (Relation.TransGen.head hedge h)
              have hlt4 : (c.mentioned \ insert s (pmAcc m0 top)).card
                  < (c.mentioned \ pmAcc m0 top).card := by
                apply Finset.card_lt_card
                rw [Finset.ssubset_iff_of_subset (Finset.sdiff_subset_sdiff
                  (Finset.Subset.refl _) (Finset.subset_insert _ _))]
                refine ⟨s, Finset.mem_sdiff.mpr ⟨hs_m, h2⟩, ?_⟩
                simp
              have hle5 : (c.mentioned \ pmAcc m0 top).card
                  ≤ (c.mentioned \ pmAcc m top).card :=
                Finset.card_le_card (Finset.sdiff_subset_sdiff
                  (Finset.Subset.refl _) hPsub)
              have hfuel2 : (c.mentioned \ pmAcc
                  (pmSet m0 top (insert s (pmAcc m0 top))) top).card < f := by
                rw [pmAcc_pmSet_self]
                omega
              have hmemo2 : ∀ k S2, k ≠ top →
                  pmLookup (pmSet m0 top (insert s (pmAcc m0 top))) k = some S2 →
                  ∀ u, u ∈ S2 ↔ Relation.TransGen (Edge c) u k := by
                intro k S2 hk hlk
                rw [pmLookup_pmSet_other _ _ _ _ hk, hPk k hk] at hlk
                exact hmemo k S2 hk hlk
              have hinv2 : ∀ x ∈ pmAcc
                  (pmSet m0 top (insert s (pmAcc m0 top))) top, ¬ Desc c s x →
                  ∀ y, Relation.TransGen (Edge c) y x →
                    y ∈ pmAcc (pmSet m0 top (insert s (pmAcc m0 top))) top := by
                rw [pmAcc_pmSet_self]
                intro x hx hnd y hy
                rcases Finset.mem_insert.mp hx with h4 | h4
                · exact absurd (show Desc c s x from Or.inl h4) hnd
                · have hnd2 : ¬ Desc c child x := by
                    intro hd
                    rcases hd with h5 | h5
                    · refine hnd (Or.inr ?_)
                      rw [h5]
                      exact Relation.TransGen.single hedge
                    · exact hnd (Or.inr (Relation.TransGen.head hedge h5))
                  exact Finset.mem_insert_of_mem (hPinv x h4 hnd2 y hy)
              obtain ⟨hComp, hInv3⟩ :=
                ih s (pmSet m0 top (insert s (pmAcc m0 top)))
                  hchild2 hfuel2 hmemo2 hinv2
              refine ⟨⟨?_, ?_, ?_⟩, ?_, hComp⟩
              · intro k hk
                rw [gap_lookup_other c top f s _ k hk,
                  pmLookup_pmSet_other _ _ _ _ hk]
                exact hPk k hk
              · refine hPsub.trans
                  (Finset.Subset.trans ?_ (gap_acc_mono c top f s _))
                rw [pmAcc_pmSet_self]
                exact Finset.subset_insert s _
              · intro x hx hnd y hy
                by_cases hds : Desc c s x
                · rcases hds with h4 | h4
                  · subst h4
                    exact hComp y hy
                  · exfalso
                    have hsound := gap_sound c top f s
                      (pmSet m0 top (insert s (pmAcc m0 top)))
                      (fun k S2 hk hlk u hu => (hmemo2 k S2 hk hlk u).mp hu)
                      x hx
                    rw [pmAcc_pmSet_self] at hsound
                    rcases hsound with h5 | h5
                    · rcases Finset.mem_insert.mp h5 with h6 | h6
                      · rw [h6] at h4
                        exact hacyc s h4
                      · exact h2 (hPinv x h6 hnd s h4)
                    · exact hacyc s (h4.trans h5)
                · exact hInv3 x hx hds y hy
              · refine gap_acc_mono c top f s _ ?_
                rw [pmAcc_pmSet_self]
                exact Finset.mem_insert_self s _
            · show GapInv c top child m (pmSet (pmSet m0 top
                  (insert s (pmAcc m0 top))) top
                  (insert s (pmAcc m0 top) ∪ S))
                ∧ GapCov c top (pmSet (pmSet m0 top
                  (insert s (pmAcc m0 top))) top
                  (insert s (pmAcc m0 top) ∪ S)) s
              have hneT := hSneTop s hedge
              have h3b : pmLookup m s = some S := by
                rw [pmLookup_pmSet_other _ _ _ _ hneT] at h3
                rw [← hPk s hneT]
                exact h3
              have hSiff := hmemo s S hneT h3b
              refine ⟨⟨?_, ?_, ?_⟩, ?_, ?_⟩
              · intro k hk
                rw [pmLookup_pmSet_other _ _ _ _ hk,
                  pmLookup_pmSet_other _ _ _ _ hk]
                exact hPk k hk
              · rw [pmAcc_pmSet_self]
                exact hPsub.trans
                  ((Finset.subset_insert s _).trans Finset.subset_union_left)
              · rw [pmAcc_pmSet_self]
                intro x hx hnd y hy
                rcases Finset.mem_union.mp hx with h4 | h4
                · rcases Finset.mem_insert.mp h4 with h5 | h5
                  · refine Finset.mem_union_right _ ((hSiff y).mpr ?_)
                    rw [← h5]
                    exact hy
                  · exact Finset.mem_union_left _
                      (Finset.mem_insert_of_mem (hPinv x h5 hnd y hy))
                · exact Finset.mem_union_right _
                    ((hSiff y).mpr (Relation.TransGen.trans hy ((hSiff x).mp h4)))
              · rw [pmAcc_pmSet_self]
                exact Finset.mem_union_left _ (Finset.mem_insert_self s _)
              · rw [pmAcc_pmSet_self]
                intro u hu
                exact Finset.mem_union_right _ ((hSiff u).mpr hu)
      have heq : getAllParentsOfNode c top (f + 1) child m
          = List.foldl
              (fun mm parentNode =>
                if parentNode = child then mm
                else if parentNode ∈ pmAcc mm top then mm
                else
                  match pmLookup (pmSet mm top
                      (insert parentNode (pmAcc mm top))) parentNode with
                  | some s =>
                      pmSet (pmSet mm top (insert parentNode (pmAcc mm top)))
                        top (insert parentNode (pmAcc mm top) ∪ s)
                  | none =>
                      getAllParentsOfNode c top f parentNode
                        (pmSet mm top (insert parentNode (pmAcc mm top))))
              m (c.getSourceNodesForDestination child) := rfl
      rw [heq]
      obtain ⟨hPF, -, hAllF⟩ :=
        foldl_pm_strong
          (fun mm parentNode =>
            if parentNode = child then mm
            else if parentNode ∈ pmAcc mm top then mm
            else
              match pmLookup (pmSet mm top
                  (insert parentNode (pmAcc mm top))) parentNode with
              | some s =>
                  pmSet (pmSet mm top (insert parentNode (pmAcc mm top)))
                    top (insert parentNode (pmAcc mm top) ∪ s)
              | none =>
                  getAllParentsOfNode c top f parentNode
                    (pmSet mm top (insert parentNode (pmAcc mm top))))
          (fun m2 => GapInv c top child m m2)
          (fun m2 t => GapCov c top m2 t)
          (fun s => Edge c s child)
          (fun m0 s hq hp => hstepBig m0 s _ rfl hq hp)
          (fun m0 s t _ _ hc =>
            ⟨hgrow m0 s hc.1, fun u hu => hgrow m0 s (hc.2 u hu)⟩)
          (c.getSourceNodesForDestination child)
          (fun s hs => mem_sourceNodes_iff_edge.mp hs)
          m ⟨fun _ _ => rfl, Finset.Subset.refl _, hinv⟩
      refine ⟨?_, hPF.2.2⟩
      intro u hu
      rw [Relation.TransGen.tail'_iff] at hu
      obtain ⟨s, hrt, hedge⟩ := hu
      obtain ⟨hsIn, hsAnc⟩ := hAllF s (mem_sourceNodes_iff_edge.mpr hedge)
      rcases Relation.reflTransGen_iff_eq_or_transGen.mp hrt with h | h
      · rw [← h]
        exact hsIn
      · exact hsAnc u h

/-- One `createOrderedNodeList` iteration preserves the registry invariant:
the result stays a permutation of the processed prefix, the parents map gains
an exact ancestor-set entry for the new node, and the emitted order stays
free of inversions (no element is preceded by one of its descendants). -/
theorem orderedStep_spec (c : Connections)
    (hacyc : ∀ v, ¬ Relation.TransGen (Edge c) v v)
    (st : List Node × ParentsMap) (processed : List Node) (z : Node)
    (hfresh : z.nodeID ∉ processed.map Node.nodeID)
    (hperm : st.1.Perm processed)
    (hreg : RegMapInv c st.2 (processed.map Node.nodeID))
    (hpw : List.Pairwise
      (fun a b => ¬ Relation.TransGen (Edge c) b.nodeID a.nodeID) st.1) :
    (orderedStep c st z).1.Perm (processed ++ [z])
    ∧ RegMapInv c (orderedStep c st z).2 ((processed ++ [z]).map Node.nodeID)
    ∧ List.Pairwise
        (fun a b => ¬ Relation.TransGen (Edge c) b.nodeID a.nodeID)
        (orderedStep c st z).1 := by
  have h1 : (orderedStep c st z).1
      = st.1.insertIdx (findInsertionIndex st.2 z.nodeID st.1) z := rfl
  have h2 : (orderedStep c st z).2
      = getAllParentsOfNode c z.nodeID (c.mentioned.card + 1) z.nodeID
          (pmSet st.2 z.nodeID ((pmLookup st.2 z.nodeID).getD ∅)) := rfl
  have hgetd : ((pmLookup st.2 z.nodeID).getD ∅ : Finset Nat) = ∅ := by
    rw [hreg.1 z.nodeID hfresh]
    rfl
  have hmemoS : ∀ k S, k ≠ z.nodeID →
      pmLookup (pmSet st.2 z.nodeID ∅) k = some S →
      ∀ u, u ∈ S ↔ Relation.TransGen (Edge c) u k := by
    intro k S hk hlk
    rw [pmLookup_pmSet_other _ _ _ _ hk] at hlk
    have hkin : k ∈ processed.map Node.nodeID := by
      by_contra hkn
      rw [hreg.1 k hkn] at hlk
      exact Option.noConfusion hlk
    obtain ⟨S0, hS0, hiff⟩ := hreg.2 k hkin
    rw [hS0] at hlk
    injection hlk with h
    rw [← h]
    exact hiff
  have hcomp := gap_complete c z.nodeID hacyc (c.mentioned.card + 1) z.nodeID
    (pmSet st.2 z.nodeID ∅) (Or.inl rfl)
    (by rw [pmAcc_pmSet_self, Finset.sdiff_empty]; omega)
    hmemoS
    (by rw [pmAcc_pmSet_self]; intro x hx; exact absurd hx (Finset.not_mem_empty x))
  have hsound : ∀ u ∈ pmAcc (getAllParentsOfNode c z.nodeID
      (c.mentioned.card + 1) z.nodeID (pmSet st.2 z.nodeID ∅)) z.nodeID,
      Relation.TransGen (Edge c) u z.nodeID := by
    intro u hu
    rcases gap_sound c z.nodeID (c.mentioned.card + 1) z.nodeID
        (pmSet st.2 z.nodeID ∅)
        (fun k S hk hlk v hv => (hmemoS k S hk hlk v).mp hv) u hu with h | h
    · rw [pmAcc_pmSet_self] at h
      exact absurd h (Finset.not_mem_empty u)
    · exact h
  have hTopSome : (pmLookup (getAllParentsOfNode c z.nodeID
      (c.mentioned.card + 1) z.nodeID (pmSet st.2 z.nodeID ∅))
        z.nodeID).isSome = true := by
    refine gap_lookup_top c z.nodeID (c.mentioned.card + 1) z.nodeID _ ?_
    rw [pmLookup_pmSet_self]
    rfl
  obtain ⟨SD, hSD⟩ := Option.isSome_iff_exists.mp hTopSome
  have hSDacc : pmAcc (getAllParentsOfNode c z.nodeID
      (c.mentioned.card + 1) z.nodeID (pmSet st.2 z.nodeID ∅)) z.nodeID
        = SD := by
    rw [pmAcc, hSD]
    rfl
  have hSDiff : ∀ u, u ∈ SD ↔ Relation.TransGen (Edge c) u z.nodeID := by
    intro u
    constructor
    · intro hu
      refine hsound u ?_
      rw [hSDacc]
      exact hu
    · intro hu
      have := hcomp.1 u hu
      rw [hSDacc] at this
      exact this
  have hocc : ∀ x ∈ st.1, ∃ S0, pmLookup st.2 x.nodeID = some S0
      ∧ ∀ u, u ∈ S0 ↔ Relation.TransGen (Edge c) u x.nodeID := by
    intro x hx
    exact hreg.2 x.nodeID (List.mem_map.mpr ⟨x, hperm.mem_iff.mp hx, rfl⟩)
  have hle := findInsertionIndex_le_length st.2 z.nodeID st.1
  have hsplit : st.1.insertIdx (findInsertionIndex st.2 z.nodeID st.1) z
      = st.1.take (findInsertionIndex st.2 z.nodeID st.1)
        ++ z :: st.1.drop (findInsertionIndex st.2 z.nodeID st.1) :=
    insertIdx_eq_take_cons_drop z st.1 _ hle
  refine ⟨?_, ?_, ?_⟩
  · rw [h1, hsplit]
    have h6 : (st.1.take (findInsertionIndex st.2 z.nodeID st.1)
        ++ z :: st.1.drop (findInsertionIndex st.2 z.nodeID st.1)).Perm
          (z :: st.1) := by
      refine List.Perm.trans List.perm_middle ?_
      rw [List.take_append_drop]
    exact h6.trans ((hperm.cons z).trans
      (List.perm_append_singleton z processed).symm)
  · rw [h2, hgetd]
    constructor
    · intro k hk
      rw [List.map_append, List.mem_append] at hk
      push_neg at hk
      obtain ⟨hk1, hk2⟩ := hk
      have hk3 : k ≠ z.nodeID := by
        intro h
        exact hk2 (by rw [h]; simp)
      rw [gap_lookup_other c z.nodeID _ _ _ k hk3,
        pmLookup_pmSet_other _ _ _ _ hk3]
      exact hreg.1 k hk1
    · intro k hk
      rw [List.map_append, List.mem_append] at hk
      rcases hk with hk | hk
      · have hk3 : k ≠ z.nodeID := by
          intro h
          rw [h] at hk
          exact hfresh hk
        obtain ⟨S0, hS0, hiff⟩ := hreg.2 k hk
        refine ⟨S0, ?_, hiff⟩
        rw [gap_lookup_other c z.nodeID _ _ _ k hk3,
          pmLookup_pmSet_other _ _ _ _ hk3]
        exact hS0
      · have hk3 : k = z.nodeID := by simpa using hk
        rw [hk3]
        exact ⟨SD, hSD, hSDiff⟩
  · rw [h1, hsplit]
    have hold : List.Pairwise
        (fun a b => ¬ Relation.TransGen (Edge c) b.nodeID a.nodeID)
        (st.1.take (findInsertionIndex st.2 z.nodeID st.1)
          ++ st.1.drop (findInsertionIndex st.2 z.nodeID st.1)) := by
      rw [List.take_append_drop]
      exact hpw
    rw [List.pairwise_append] at hold
    obtain ⟨hT, hD, hTD⟩ := hold
    rw [List.pairwise_append]
    refine ⟨hT, ?_, ?_⟩
    · rw [List.pairwise_cons]
      refine ⟨?_, hD⟩
      intro y hy hcontra
      rcases Nat.lt_or_ge (findInsertionIndex st.2 z.nodeID st.1)
          st.1.length with hlt | hge
      · have hhit := findInsertionIndex_hit st.2 z.nodeID st.1 hlt
        obtain ⟨S0, hS0, hiff0⟩ :=
          hocc _ (List.get_mem st.1 (findInsertionIndex st.2 z.nodeID st.1) hlt)
        rw [hS0] at hhit
        simp only [Option.getD_some] at hhit
        have hzo : Relation.TransGen (Edge c) z.nodeID
            (st.1.get ⟨findInsertionIndex st.2 z.nodeID st.1, hlt⟩).nodeID :=
          (hiff0 _).mp hhit
        have hdropeq : st.1.drop (findInsertionIndex st.2 z.nodeID st.1)
            = st.1.get ⟨findInsertionIndex st.2 z.nodeID st.1, hlt⟩
              :: st.1.drop (findInsertionIndex st.2 z.nodeID st.1 + 1) := by
          rw [List.drop_eq_getElem_cons hlt]
          rfl
        rw [hdropeq] at hy
        rcases List.mem_cons.mp hy with hyo | hy2
        · rw [hyo] at hcontra
          exact hacyc z.nodeID (hzo.trans hcontra)
        · rw [hdropeq] at hD
          rw [List.pairwise_cons] at hD
          exact hD.1 y hy2 (hcontra.trans hzo)
      · have hnil : st.1.drop (findInsertionIndex st.2 z.nodeID st.1) = [] :=
          List.drop_eq_nil_of_le hge
        rw [hnil] at hy
        exact absurd hy (List.not_mem_nil y)
    · intro x hx y hy
      rcases List.mem_cons.mp hy with hyz | hy2
      · rw [hyz]
        have htake := findInsertionIndex_take st.2 z.nodeID st.1 x hx
        obtain ⟨S0, hS0, hiff0⟩ := hocc x (List.mem_of_mem_take hx)
        rw [hS0] at htake
        simp only [Option.getD_some] at htake
        intro hcontra
        exact htake ((hiff0 _).mpr hcontra)
      · exact hTD x hx y hy2

/-- The `createOrderedNodeList` fold keeps the emitted list a permutation of
the processed registry prefix, inversion-free, with exact ancestor entries in
the parents map. -/
theorem ordered_fold_invariant (c : Connections)
    (hacyc : ∀ v, ¬ Relation.TransGen (Edge c) v v) :
    ∀ (l processed : List Node) (st : List Node × ParentsMap),
      (processed.map Node.nodeID ++ l.map Node.nodeID).Nodup →
      st.1.Perm processed →
      RegMapInv c st.2 (processed.map Node.nodeID) →
      List.Pairwise
        (fun a b => ¬ Relation.TransGen (Edge c) b.nodeID a.nodeID) st.1 →
      (List.foldl (orderedStep c) st l).1.Perm (processed ++ l)
      ∧ RegMapInv c (List.foldl (orderedStep c) st l).2
          ((processed ++ l).map Node.nodeID)
      ∧ List.Pairwise
          (fun a b => ¬ Relation.TransGen (Edge c) b.nodeID a.nodeID)
          (List.foldl (orderedStep c) st l).1 := by
  intro l
  induction l with
  | nil =>
      intro processed st _ hperm hreg hpw
      rw [List.foldl_nil, List.append_nil]
      exact ⟨hperm, hreg, hpw⟩
  | cons z rest ih =>
      intro processed st hnd hperm hreg hpw
      rw [List.foldl_cons]
      have hfresh : z.nodeID ∉ processed.map Node.nodeID := by
        rw [List.nodup_append] at hnd
        intro hmem
        exact hnd.2.2 hmem (by simp)
      obtain ⟨ha, hb, hc⟩ :=
        orderedStep_spec c hacyc st processed z hfresh hperm hreg hpw
      have hnd2 : ((processed ++ [z]).map Node.nodeID
          ++ rest.map Node.nodeID).Nodup := by
        have hre : (processed ++ [z]).map Node.nodeID ++ rest.map Node.nodeID
            = processed.map Node.nodeID ++ (z :: rest).map Node.nodeID := by
          simp
        rw [hre]
        exact hnd
      have hres := ih (processed ++ [z]) (orderedStep c st z) hnd2 ha hb hc
      rw [List.append_assoc, List.singleton_append] at hres
      exact hres

/-- C7: on a registry with distinct node ids whose node-level connection
graph is acyclic, `createOrderedNodeList` (source lines 810–834, with the
parent sets computed by `getAllParentsOfNode`, lines 785–808) emits a
permutation of the registry that is a topological order: for every
connection u → v, node u appears strictly before node v.  (Determinism for a
fixed registry and connection set holds definitionally: the order is a pure
function of the two.) -/
theorem createOrderedNodeList_topological (n : Nodes) (c : Connections)
    (hacyc : ∀ v, ¬ Relation.TransGen (Edge c) v v)
    (hnd : (n.array.map Node.nodeID).Nodup) :
    (createOrderedNodeList n c).Perm n.array
    ∧ ∀ (i j : Nat) (hi : i < (createOrderedNodeList n c).length)
        (hj : j < (createOrderedNodeList n c).length),
        Edge c ((createOrderedNodeList n c).get ⟨i, hi⟩).nodeID
          ((createOrderedNodeList n c).get ⟨j, hj⟩).nodeID → i < j := by
  obtain ⟨hperm, -, hpw⟩ := ordered_fold_invariant c hacyc n.array [] ([], [])
    (by simpa using hnd) (List.Perm.refl _)
    ⟨fun k _ => rfl, fun k hk => absurd hk (List.not_mem_nil k)⟩
    List.Pairwise.nil
  constructor
  · simpa using hperm
  · intro i j hi hj hedge
    rcases Nat.lt_trichotomy i j with h | h | h
    · exact h
    · exfalso
      subst h
      exact hacyc _ (Relation.TransGen.single hedge)
    · exfalso
      exact (List.pairwise_iff_getElem.mp hpw j i hj hi h)
        (Relation.TransGen.single hedge)

/-- Witness for `C7`: a two-node registry listed in anti-topological order
(node 2 before node 1) with the single connection 1 → 2; the hypotheses hold
and the compiler reorders the nodes topologically. -/
theorem createOrderedNodeList_topological_witness :
    (∀ v, ¬ Relation.TransGen
        (Edge (⟨[(⟨2, 0⟩, [⟨1, 0⟩])]⟩ : Connections)) v v)
    ∧ (([⟨2, sampleProcessor 1 0 0⟩, ⟨1, sampleProcessor 0 1 0⟩]
          : List Node).map Node.nodeID).Nodup
    ∧ ((createOrderedNodeList
          ⟨[⟨2, sampleProcessor 1 0 0⟩, ⟨1, sampleProcessor 0 1 0⟩]⟩
          ⟨[(⟨2, 0⟩, [⟨1, 0⟩])]⟩).Perm
        [⟨2, sampleProcessor 1 0 0⟩, ⟨1, sampleProcessor 0 1 0⟩]
      ∧ ∀ (i j : Nat)
          (hi : i < (createOrderedNodeList
            ⟨[⟨2, sampleProcessor 1 0 0⟩, ⟨1, sampleProcessor 0 1 0⟩]⟩
            ⟨[(⟨2, 0⟩, [⟨1, 0⟩])]⟩).length)
          (hj : j < (createOrderedNodeList
            ⟨[⟨2, sampleProcessor 1 0 0⟩, ⟨1, sampleProcessor 0 1 0⟩]⟩
            ⟨[(⟨2, 0⟩, [⟨1, 0⟩])]⟩).length),
          Edge (⟨[(⟨2, 0⟩, [⟨1, 0⟩])]⟩ : Connections)
            ((createOrderedNodeList
              ⟨[⟨2, sampleProcessor 1 0 0⟩, ⟨1, sampleProcessor 0 1 0⟩]⟩
              ⟨[(⟨2, 0⟩, [⟨1, 0⟩])]⟩).get ⟨i, hi⟩).nodeID
            ((createOrderedNodeList
              ⟨[⟨2, sampleProcessor 1 0 0⟩, ⟨1, sampleProcessor 0 1 0⟩]⟩
              ⟨[(⟨2, 0⟩, [⟨1, 0⟩])]⟩).get ⟨j, hj⟩).nodeID → i < j) := by
  have hE : ∀ u v, Edge (⟨[(⟨2, 0⟩, [⟨1, 0⟩])]⟩ : Connections) u v →
      u = 1 ∧ v = 2 := by
    rintro u v ⟨p, hp, h1, s, hs, h2⟩
    simp only [List.mem_singleton] at hp
    subst hp
    simp only [List.mem_singleton] at hs
    subst hs
    exact ⟨h2.symm, h1.symm⟩
  have hacycW : ∀ v, ¬ Relation.TransGen
      (Edge (⟨[(⟨2, 0⟩, [⟨1, 0⟩])]⟩ : Connections)) v v := by
    have hTG : ∀ a b, Relation.TransGen
        (Edge (⟨[(⟨2, 0⟩, [⟨1, 0⟩])]⟩ : Connections)) a b →
        a = 1 ∧ b = 2 := by
      intro a b h
      induction h with
      | single h => exact hE _ _ h
      | tail h1 h2 ih =>
          obtain ⟨h3, h4⟩ := hE _ _ h2
          obtain ⟨h5, h6⟩ := ih
          omega
    intro v hv
    obtain ⟨h1, h2⟩ := hTG v v hv
    omega
  exact ⟨hacycW, by decide,
    createOrderedNodeList_topological _ _ hacycW (by decide)⟩

end AudioGraph
